import Mathlib

/-!
Verification of the Cloudflare WAF MCP server's API gateway against its
specification.  The definitions below are shallow embeddings of the
TypeScript source: `sanitizeErrorMessage` and the `CloudflareApi` methods
from `src/cloudflare-api.ts`, the zod identifier schema from
`src/validation.ts`, the `getTimeRange` helper from
`src/tools/waf-analytics.ts`, and the `list_custom_rules` /`toggle_rule`
tool handlers.  Strings are modelled as lists of characters; machine
timestamps as integers (milliseconds); the external Cloudflare provider is
modelled explicitly where an operation's contract depends on it.
-/

/-! ## Character classes used by the sanitizer's regular expressions

`sanitizeErrorMessage` applies four global regex replacements in order:
  1. `/Bearer\s+[a-zA-Z0-9_-]+/gi`  → `"Bearer [REDACTED]"`
  2. `/[a-f0-9]{32,}/gi`            → `"[REDACTED_ID]"`
  3. `/[a-zA-Z0-9._%+-]+@[a-zA-Z0-9.-]+\.[a-zA-Z]{2,}/g` → `"[REDACTED_EMAIL]"`
  4. `/\b\d{1,3}\.\d{1,3}\.\d{1,3}\.\d{1,3}\b/g`         → `"[REDACTED_IP]"`
then truncates to 200 characters (appending `"..."`) when longer.

Each pattern is embedded as a deterministic maximal-munch matcher that
agrees with the backtracking regex semantics: every quantified class in
these patterns is followed by a character outside the class (or an
assertion), so the greedy parse never needs to backtrack into a shorter
run.  The JS `\s` class is modelled by its whitespace code points; `\w`
(for `\b`) is ASCII `[A-Za-z0-9_]` exactly as in JS regexes.
-/

def isWsJS (c : Char) : Bool :=
  c = ' ' || c = '\t' || c = '\n' || c = '\r' || c = '\x0b' || c = '\x0c' ||
  c = '\u00A0' || c = '\uFEFF' || c = '\u1680' ||
  ('\u2000' <= c && c <= '\u200A') ||
  c = '\u2028' || c = '\u2029' || c = '\u202F' || c = '\u205F' || c = '\u3000'

def isDigitCh (c : Char) : Bool := '0' ≤ c && c ≤ '9'

def isAsciiAlpha (c : Char) : Bool := ('a' ≤ c && c ≤ 'z') || ('A' ≤ c && c ≤ 'Z')

/-- JS word character (`\w`, the class deciding `\b` boundaries). -/
def isWordCh (c : Char) : Bool := isAsciiAlpha c || isDigitCh c || c = '_'

/-- Class `[a-f0-9]` under the `i` flag. -/
def isHexI (c : Char) : Bool :=
  isDigitCh c || ('a' ≤ c && c ≤ 'f') || ('A' ≤ c && c ≤ 'F')

/-- Class `[a-zA-Z0-9_-]`, the token class of the Bearer pattern. -/
def isTokCh (c : Char) : Bool := isAsciiAlpha c || isDigitCh c || c = '_' || c = '-'

/-- Class `[a-zA-Z0-9._%+-]`, the local part of the email pattern. -/
def isLocalCh (c : Char) : Bool :=
  isAsciiAlpha c || isDigitCh c || c = '.' || c = '_' || c = '%' || c = '+' || c = '-'

/-- Class `[a-zA-Z0-9.-]`, the domain part of the email pattern. -/
def isDomainCh (c : Char) : Bool := isAsciiAlpha c || isDigitCh c || c = '.' || c = '-'

/-- Length of the maximal run of `p`-characters at the head of `u`. -/
def runL (p : Char → Bool) (u : List Char) : Nat := (u.takeWhile p).length

/-- Case-insensitive test against a lower/upper pair of ASCII letters. -/
def ciIs (c lo up : Char) : Bool := c = lo || c = up

/-- The literal `Bearer` under the `i` flag, at the head of the input. -/
def bearerHead : List Char → Bool
  | c0 :: c1 :: c2 :: c3 :: c4 :: c5 :: _ =>
      ciIs c0 'b' 'B' && ciIs c1 'e' 'E' && ciIs c2 'a' 'A' && ciIs c3 'r' 'R' &&
      ciIs c4 'e' 'E' && ciIs c5 'r' 'R'
  | _ => false

/-- Head match for `Bearer\s+[a-zA-Z0-9_-]+` (case-insensitive); returns the
number of characters consumed. -/
def matchBearer (u : List Char) : Option Nat :=
  if bearerHead u then
    let w := runL isWsJS (u.drop 6)
    if w = 0 then none
    else
      let v := runL isTokCh (u.drop (6 + w))
      if v = 0 then none else some (6 + w + v)
  else none

/-- Head match for `[a-f0-9]{32,}` (case-insensitive): a hex run of length
at least 32, consumed greedily to the end of the run. -/
def matchHex (u : List Char) : Option Nat :=
  let h := runL isHexI u
  if 32 ≤ h then some h else none

/-- Valid dot position inside the domain run `R` of the email pattern:
`k ≥ 1` characters of domain before the dot, at least two ASCII letters
after it. -/
def dotOk (R : List Char) (k : Nat) : Bool :=
  decide (1 ≤ k) && R[k]? = some '.' && decide (2 ≤ runL isAsciiAlpha (R.drop (k + 1)))

/-- The greedy (largest) valid dot position inside the domain run. -/
def bestDot (R : List Char) : Option Nat :=
  (List.range R.length).reverse.find? (dotOk R)

/-- Head match for `[a-zA-Z0-9._%+-]+@[a-zA-Z0-9.-]+\.[a-zA-Z]{2,}`. -/
def matchEmail (u : List Char) : Option Nat :=
  let l := runL isLocalCh u
  if l = 0 then none
  else if u[l]? = some '@' then
    let R := (u.drop (l + 1)).takeWhile isDomainCh
    match bestDot R with
    | some k => some (l + 1 + k + 1 + runL isAsciiAlpha (R.drop (k + 1)))
    | none => none
  else none

/-- The `\d{1,3}(\.\d{1,3}){n}` spine of the IPv4 pattern: `n + 1` digit
groups separated by literal dots, the final group carrying the trailing
`\b` (next character, if any, is not a word character).  Each group must
consume its entire digit run (a shorter parse would be followed by a
digit, failing the dot or the boundary), so the parse is deterministic. -/
def ipGroups : Nat → List Char → Option Nat
  | 0, u =>
    let r := runL isDigitCh u
    if 1 ≤ r ∧ r ≤ 3 then
      match u[r]? with
      | some c => if isWordCh c then none else some r
      | none => some r
    else none
  | n + 1, u =>
    let r := runL isDigitCh u
    if 1 ≤ r ∧ r ≤ 3 then
      if u[r]? = some '.' then
        match ipGroups n (u.drop (r + 1)) with
        | some m => some (r + 1 + m)
        | none => none
      else none
    else none

/-- Head match for `\b\d{1,3}\.\d{1,3}\.\d{1,3}\.\d{1,3}\b`.  The leading
`\b` is the flag `b`: whether the character before the head position is a
word character (matches start with a digit, so the boundary holds exactly
when the previous character is absent or not a word character). -/
def matchIp (b : Bool) (u : List Char) : Option Nat :=
  if b then none else ipGroups 3 u

/-- Replacement text `"Bearer [REDACTED]"`. -/
def markerBearer : List Char :=
  ['B', 'e', 'a', 'r', 'e', 'r', ' ', '[', 'R', 'E', 'D', 'A', 'C', 'T', 'E', 'D', ']']

/-- Replacement text `"[REDACTED_ID]"`. -/
def markerId : List Char :=
  ['[', 'R', 'E', 'D', 'A', 'C', 'T', 'E', 'D', '_', 'I', 'D', ']']

/-- Replacement text `"[REDACTED_EMAIL]"`. -/
def markerEmail : List Char :=
  ['[', 'R', 'E', 'D', 'A', 'C', 'T', 'E', 'D', '_', 'E', 'M', 'A', 'I', 'L', ']']

/-- Replacement text `"[REDACTED_IP]"`. -/
def markerIp : List Char :=
  ['[', 'R', 'E', 'D', 'A', 'C', 'T', 'E', 'D', '_', 'I', 'P', ']']

/-- A global regex replacement (`String.replace` with the `g` flag) for a
context-free pattern: at each position try the head matcher; on success
emit the marker and resume after the consumed text, otherwise copy one
character.  Fuel-indexed for structural recursion; one unit of fuel covers
one consumed character or more. -/
def scanG (m : List Char → Option Nat) (mk : List Char) : Nat → List Char → List Char
  | 0, u => u
  | n + 1, u =>
    match m u with
    | some k => mk ++ scanG m mk n (u.drop k)
    | none =>
      match u with
      | [] => []
      | c :: t => c :: scanG m mk n t

/-- A head matcher bundled with its replacement text and the two facts the
scanner needs: nothing matches the empty input, and a match consumes at
least one character. -/
structure Matcher where
  m : List Char → Option Nat
  rep : List Char
  hnil : m [] = none
  hpos : ∀ u k, m u = some k → 1 ≤ k

/-- Run the global replacement of a matcher over an input. -/
def Matcher.run (M : Matcher) (u : List Char) : List Char :=
  scanG M.m M.rep u.length u

/-- The global replacement for the IPv4 pattern, which is context
sensitive: `b` records whether the previous character of the input was a
word character (for the leading `\b`).  After a match the previous
character is the final digit of the match, a word character. -/
def scanIpF : Nat → Bool → List Char → List Char
  | 0, _, u => u
  | n + 1, b, u =>
    match matchIp b u with
    | some k => markerIp ++ scanIpF n true (u.drop k)
    | none =>
      match u with
      | [] => []
      | c :: t => c :: scanIpF n (isWordCh c) t

def scanIp (b : Bool) (u : List Char) : List Char := scanIpF u.length b u

/-- Stage 1 of the sanitizer: the Bearer-token redaction. -/
def MBearer : Matcher where
  m := matchBearer
  rep := markerBearer
  hnil := rfl
  hpos := by
    intro u k h
    simp only [matchBearer] at h
    split at h
    · split at h
      · exact absurd h (by simp)
      · split at h
        · exact absurd h (by simp)
        · simp only [Option.some.injEq] at h; omega
    · exact absurd h (by simp)

/-- Stage 2 of the sanitizer: the long-hex-run redaction. -/
def MHex : Matcher where
  m := matchHex
  rep := markerId
  hnil := rfl
  hpos := by
    intro u k h
    simp only [matchHex] at h
    split at h
    · simp only [Option.some.injEq] at h; omega
    · exact absurd h (by simp)

/-- Stage 3 of the sanitizer: the email redaction. -/
def MEmail : Matcher where
  m := matchEmail
  rep := markerEmail
  hnil := rfl
  hpos := by
    intro u k h
    simp only [matchEmail] at h
    split at h
    · exact absurd h (by simp)
    · split at h
      · split at h
        · simp only [Option.some.injEq] at h; omega
        · exact absurd h (by simp)
      · exact absurd h (by simp)

/-- The four redaction passes of `sanitizeErrorMessage`, in source order
(Bearer tokens, hex ids, emails, IPv4 addresses). -/
def redactL (u : List Char) : List Char :=
  scanIp false (MEmail.run (MHex.run (MBearer.run u)))

/-- Shallow embedding of `sanitizeErrorMessage` (src/cloudflare-api.ts
lines 7-25): the four redactions, then truncation to 200 characters with a
`"..."` marker when the redacted text is longer than 200. -/
def sanitizeErrorMessage (s : String) : String :=
  let r := redactL s.data
  if 200 < r.length then String.mk (r.take 200 ++ ['.', '.', '.']) else String.mk r

/-- Substring search, as JS `String.prototype.includes`. -/
def containsSub (nee : List Char) : List Char → Bool
  | [] => nee.isEmpty
  | c :: t => nee.isPrefixOf (c :: t) || containsSub nee t

/-- JS `s.includes(sub)`. -/
def strIncludes (s sub : String) : Bool := containsSub sub.data s.data

/-! ## Data model of the gateway client (src/cloudflare-api.ts) -/

/-- A rule of a ruleset (interface `RulesetRule`, the fields the rule
operations read or write). -/
structure RulesetRule where
  id : String
  action : String
  expression : String
  description : String
  enabled : Bool
deriving DecidableEq, Inhabited

/-- A phase-scoped ruleset (interface `Ruleset`). -/
structure Ruleset where
  id : String
  name : String
  kind : String
  phase : String
  rules : List RulesetRule
deriving DecidableEq, Inhabited

/-- One error of the REST response envelope. -/
structure ApiErrorItem where
  code : Nat
  message : String
deriving DecidableEq, Inhabited

/-- The provider's REST response envelope (interface
`CloudflareApiResponse`), already parsed from JSON. -/
structure Envelope (α : Type) where
  success : Bool
  errors : List ApiErrorItem
  result : α

/-- The error-message concatenation of `request`:
`data.errors.map((e) => e.message).join(", ")`. -/
def joinMessages (errors : List ApiErrorItem) : String :=
  String.intercalate ", " (errors.map (fun e => e.message))

/-- Shallow embedding of the envelope handling of `request`
(src/cloudflare-api.ts lines 133-141): a failed envelope becomes an error
whose message is the sanitized concatenation of the provider's error
messages, behind a fixed prefix. -/
def requestOutcome {α : Type} (resp : Envelope α) : Except String α :=
  if resp.success then .ok resp.result
  else .error ("Cloudflare API error: " ++ sanitizeErrorMessage (joinMessages resp.errors))

/-- Shallow embedding of the error handling of `graphqlRequest`
(src/cloudflare-api.ts lines 153-161): a non-empty GraphQL error list
becomes a sanitized error; otherwise the data is returned. -/
def graphqlOutcome {α : Type} (data : α) (gqlErrors : List String) : Except String α :=
  if gqlErrors.isEmpty then .ok data
  else .error ("GraphQL error: " ++ sanitizeErrorMessage (String.intercalate ", " gqlErrors))

/-- A failure message as produced by the gateway client's two request
primitives: some raw provider text that has passed through
`sanitizeErrorMessage`, behind one of the two fixed prefixes. -/
def SanitizedMsg (s : String) : Prop :=
  ∃ raw : String, s = "Cloudflare API error: " ++ sanitizeErrorMessage raw ∨
    s = "GraphQL error: " ++ sanitizeErrorMessage raw

/-! ## Provider model for the rule write operations

The write operations talk to the external Cloudflare rulesets API.  The
provider state and endpoint transitions below model that service as the
spec describes it (section 3's data model and section 4.4's endpoints): a
zone holds a list of phase-scoped rulesets; the entry-point lookup finds
the ruleset of a phase; creating a ruleset appends an empty one; appending
or patching a rule rewrites the addressed ruleset.  The client code under
test (`createCustomRule`, `updateCustomRule`, the tool handlers) is
translated from the source against this model. -/

/-- Provider-side state of one zone, plus a counter for fresh rule ids. -/
structure ZoneState where
  rulesets : List Ruleset
  counter : Nat
deriving Inhabited

/-- Provider configuration: the error text it reports for a missing
entry-point ruleset and the ids it assigns to fresh resources. -/
structure Provider where
  notFoundMsg : String
  freshRulesetId : String
  freshRuleId : Nat → String

/-- The phase of user-defined WAF rules. -/
def customPhase : String := "http_request_firewall_custom"

/-- The operations a client call performs against the provider. -/
inductive Op where
  | getEntry (phase : String)
  | createRuleset (phase : String)
  | appendRule (rulesetId : String)
  | patchRule (rulesetId ruleId : String)
deriving DecidableEq

/-- Provider lookup of the entry-point ruleset of a phase. -/
def findEntryPoint (st : ZoneState) (phase : String) : Option Ruleset :=
  st.rulesets.find? (fun rs => rs.phase == phase)

/-- The client's `getEntryPointRuleset`, routed through the envelope
handling of `request`: a missing ruleset is a failed envelope carrying the
provider's not-found message. -/
def getEntryPointRuleset (p : Provider) (st : ZoneState) (phase : String) :
    Except String Ruleset :=
  match findEntryPoint st phase with
  | some rs => requestOutcome { success := true, errors := [], result := rs }
  | none =>
      requestOutcome
        { success := false, errors := [{ code := 10000, message := p.notFoundMsg }],
          result := (default : Ruleset) }

/-- Provider transition for `POST /zones/:id/rulesets` with an empty rule
list (the body built at src/cloudflare-api.ts lines 418-426). -/
def providerCreateRuleset (p : Provider) (st : ZoneState) (phase : String) :
    Ruleset × ZoneState :=
  let rs : Ruleset :=
    { id := p.freshRulesetId, name := "Custom Firewall Rules", kind := "zone",
      phase := phase, rules := [] }
  (rs, { st with rulesets := st.rulesets ++ [rs] })

/-- The rule fields submitted by `createCustomRule`. -/
structure NewRule where
  description : String
  expression : String
  action : String
  enabled : Bool
deriving DecidableEq, Inhabited

/-- Provider transition for the rule-append endpoint
`POST /zones/:id/rulesets/:rid/rules`: the addressed ruleset gains the new
rule at the end of its sequence and is returned. -/
def providerAppendRule (p : Provider) (st : ZoneState) (rsId : String) (nr : NewRule) :
    Except String (Ruleset × ZoneState) :=
  match st.rulesets.find? (fun rs => rs.id == rsId) with
  | some rs =>
      let rule : RulesetRule :=
        { id := p.freshRuleId st.counter, action := nr.action,
          expression := nr.expression, description := nr.description,
          enabled := nr.enabled }
      let rs2 : Ruleset := { rs with rules := rs.rules ++ [rule] }
      .ok (rs2,
        { rulesets := st.rulesets.map (fun x => if x.id == rsId then rs2 else x),
          counter := st.counter + 1 })
  | none =>
      .error ("Cloudflare API error: " ++ sanitizeErrorMessage p.notFoundMsg)

/-- The value `createCustomRule` extracts from the append response:
`response.result.rules[response.result.rules.length - 1]` (line 439).  A
JS index of `length - 1` is the last element when the sequence is
non-empty and `undefined` when it is empty (index `-1`), which is exactly
`List.getLast?`. -/
def appendReturn (rs : Ruleset) : Option RulesetRule := rs.rules.getLast?

/-- Shallow embedding of `createCustomRule` (src/cloudflare-api.ts lines
401-440): fetch the custom-phase entry-point ruleset; if that fails with a
message containing `"404"` or `"not found"`, create the ruleset first;
otherwise rethrow; then append the rule and return the last element of the
returned rule sequence.  The result carries the provider state after the
call and the trace of provider operations performed. -/
def createCustomRule (p : Provider) (st : ZoneState) (nr : NewRule) :
    Except String (Option RulesetRule) × ZoneState × List Op :=
  let afterGet : String → ZoneState → List Op →
      Except String (Option RulesetRule) × ZoneState × List Op :=
    fun rsId st2 ops =>
      match providerAppendRule p st2 rsId nr with
      | .ok (rs2, st3) => (.ok (appendReturn rs2), st3, ops ++ [Op.appendRule rsId])
      | .error e => (.error e, st2, ops ++ [Op.appendRule rsId])
  match getEntryPointRuleset p st customPhase with
  | .ok rs => afterGet rs.id st [Op.getEntry customPhase]
  | .error e =>
      if strIncludes e "404" || strIncludes e "not found" then
        let (rs, st2) := providerCreateRuleset p st customPhase
        afterGet rs.id st2 [Op.getEntry customPhase, Op.createRuleset customPhase]
      else (.error e, st, [Op.getEntry customPhase])

/-- Shallow embedding of the response handling of `updateCustomRule`
(src/cloudflare-api.ts lines 442-467): given the outcome of the PATCH
request, locate the updated rule in the returned ruleset's rule sequence
by its id; fail when it is absent. -/
def updateCustomRule (patchResp : Except String Ruleset) (ruleId : String) :
    Except String RulesetRule :=
  match patchResp with
  | .error e => .error e
  | .ok rs =>
      match rs.rules.find? (fun r => r.id == ruleId) with
      | some r => .ok r
      | none => .error "Updated rule not found in response"

/-- A partial rule update: absent fields are not sent in the PATCH body
(`update_custom_rule` builds this object field by field,
src/tools/waf-write.ts lines 65-69). -/
structure RulePatch where
  description : Option String
  expression : Option String
  action : Option String
  enabled : Option Bool
deriving DecidableEq, Inhabited

/-- Provider-side PATCH semantics, modelled from the spec (4.4: "only
supplied fields are sent", absence means "leave unchanged"): the patched
rule keeps every field the patch does not supply. -/
def applyPatch (r : RulesetRule) (pch : RulePatch) : RulesetRule :=
  { r with
    description := pch.description.getD r.description,
    expression := pch.expression.getD r.expression,
    action := pch.action.getD r.action,
    enabled := pch.enabled.getD r.enabled }

/-- Provider transition for the rule PATCH endpoint: the addressed rule is
rewritten by the patch inside its ruleset, and the whole updated ruleset
is returned. -/
def providerPatchRule (p : Provider) (st : ZoneState) (rsId ruleId : String)
    (pch : RulePatch) : Except String Ruleset :=
  match st.rulesets.find? (fun rs => rs.id == rsId) with
  | some rs =>
      if rs.rules.any (fun r => r.id == ruleId) then
        .ok { rs with
              rules := rs.rules.map (fun r => if r.id == ruleId then applyPatch r pch else r) }
      else .error ("Cloudflare API error: " ++ sanitizeErrorMessage p.notFoundMsg)
  | none => .error ("Cloudflare API error: " ++ sanitizeErrorMessage p.notFoundMsg)

/-- The patch `toggle_rule` submits: only `enabled` is set
(src/tools/waf-write.ts line 140). -/
def toggleUpdates (b : Bool) : RulePatch :=
  { description := none, expression := none, action := none, enabled := some b }

/-- The `toggle_rule` tool's API action: `updateCustomRule` with only
`enabled` set, against the provider's PATCH endpoint. -/
def toggleRule (p : Provider) (st : ZoneState) (rsId ruleId : String) (b : Bool) :
    Except String RulesetRule :=
  updateCustomRule (providerPatchRule p st rsId ruleId (toggleUpdates b)) ruleId

/-! ## Analytics aggregation (src/cloudflare-api.ts lines 272-341) -/

/-- One group of the GraphQL aggregation response: a count and the value
of the grouped dimension. -/
structure GroupCount where
  count : Nat
  dimension : String
deriving DecidableEq, Inhabited

/-- The per-zone payload of the security-summary GraphQL query: the three
grouping sub-queries. -/
structure ZoneAgg where
  byAction : List GroupCount
  bySource : List GroupCount
  byCountry : List GroupCount
deriving DecidableEq, Inhabited

/-- The value `getSecurityEventsSummary` returns. -/
structure Summary where
  byAction : List (String × Nat)
  bySource : List (String × Nat)
  byCountry : List (String × Nat)
deriving DecidableEq, Inhabited

/-- Shallow embedding of `getSecurityEventsSummary` (src/cloudflare-api.ts
lines 272-341): route the GraphQL response through `graphqlRequest`'s
error handling, take `viewer.zones[0]` if present (`zones[0]?.…`), map
each grouping to (dimension, count) pairs, and default every absent piece
to the empty list (`|| []`). -/
def getSecurityEventsSummary (zones : List ZoneAgg) (gqlErrors : List String) :
    Except String Summary :=
  match graphqlOutcome zones gqlErrors with
  | .error e => .error e
  | .ok zs =>
      let zone := zs.head?
      .ok
        { byAction := (zone.map (fun z => z.byAction.map (fun i => (i.dimension, i.count)))).getD []
          bySource := (zone.map (fun z => z.bySource.map (fun i => (i.dimension, i.count)))).getD []
          byCountry := (zone.map (fun z => z.byCountry.map (fun i => (i.dimension, i.count)))).getD [] }

/-! ## Time-window construction (src/tools/waf-analytics.ts lines 8-15) -/

/-- A half-open time window, in integer milliseconds since the epoch. -/
structure TimeRange where
  startTime : Int
  endTime : Int
deriving DecidableEq

/-- Shallow embedding of `getTimeRange(minutes)`: `endTime` is the
invocation instant (`new Date()`), `startTime` is
`endTime.getTime() - minutes * 60 * 1000`.  The instant is a parameter
because the embedding is pure. -/
def getTimeRange (nowMs : Int) (minutes : Int) : TimeRange :=
  { startTime := nowMs - minutes * 60 * 1000, endTime := nowMs }

/-- Clamping to the supported minutes range `[1, 1440]` (the bounds the
tool input contracts enforce). -/
def clampMinutes (n : Int) : Int := max 1 (min n 1440)

/-! ## Identifier validation (src/validation.ts) -/

/-- Lowercase hexadecimal character, class `[a-f0-9]`. -/
def isLowerHexCh (c : Char) : Bool := isDigitCh c || ('a' ≤ c && c ≤ 'f')

/-- Shallow embedding of `CLOUDFLARE_ID_REGEX = /^[a-f0-9]{32}$/` as a
whole-string acceptor (src/validation.ts line 300): exactly 32 characters,
all lowercase hex. -/
def cloudflareIdAccepts (s : String) : Bool :=
  s.data.length == 32 && s.data.all isLowerHexCh

/-- Registry dispatch contract for a tool taking a zone id (spec 4.6, as
realized by the tool-registration SDK): the input contract is validated
first, and the handler — whose provider operations are `handlerOps` — runs
only on accepted input.  A validation failure produces no operation. -/
def runZoneTool (handlerOps : String → List Op) (zoneId : String) :
    Except String (List Op) :=
  if cloudflareIdAccepts zoneId then .ok (handlerOps zoneId)
  else .error "Invalid Cloudflare ID format (expected 32-character hex string)"

/-! ## The list_custom_rules read tool (src/tools/waf-read.ts) -/

/-- What a tool handler produces: a successful text content block, or an
error thrown out of the handler. -/
inductive ToolOutcome where
  | text (s : String)
  | thrown (e : String)
deriving DecidableEq

/-- The fallback text of `list_custom_rules`:
`JSON.stringify({rules: [], message: "No custom rules configured for this zone"}, null, 2)`. -/
def noRulesText : String :=
  "\x7b\n  \"rules\": [],\n  \"message\": \"No custom rules configured for this zone\"\n\x7d"

/-- Shallow embedding of the `list_custom_rules` handler's control flow
(src/tools/waf-read.ts lines 76-102), parameterized by the JSON rendering
of a ruleset: on success, the ruleset's JSON text; on a fetch error whose
message contains `"404"` or `"not found"`, the fallback text; any other
error is rethrown unchanged. -/
def listCustomRules (render : Ruleset → String) :
    Except String Ruleset → ToolOutcome
  | .ok rs => .text (render rs)
  | .error e =>
      if strIncludes e "404" || strIncludes e "not found" then .text noRulesText
      else .thrown e

/-- Number of custom-phase rulesets a provider state holds (the spec's
"at most one entry-point ruleset per zone per phase" invariant counts
these). -/
def countCustom (st : ZoneState) : Nat :=
  (st.rulesets.filter (fun rs => rs.phase == customPhase)).length

/-! ## Rescanning predicates for the sanitizer's idempotence -/

/-- No suffix of `u` matches the (context-free) head matcher `m`: a global
replacement pass for `m` leaves `u` unchanged. -/
def NoMatch (m : List Char → Option Nat) (u : List Char) : Prop :=
  ∀ v, v <:+ u → m v = none

/-- The word-character context right after `pre`, starting from context
`b`: the leading-boundary information the IPv4 matcher sees there. -/
def wordCtx (b : Bool) (pre : List Char) : Bool :=
  match pre.getLast? with
  | some c => isWordCh c
  | none => b

/-- No split of `u` admits an IPv4 match, under starting context `b`. -/
def NoMatchIp (b : Bool) (u : List Char) : Prop :=
  ∀ pre suf : List Char, u = pre ++ suf → matchIp (wordCtx b pre) suf = none

/-! ## Claim theorems (validation, analytics, rule operations) -/

/-- Auxiliary: a list mapped by a function that fixes every element is
unchanged. -/
theorem list_map_eq_self {α : Type} (l : List α) (f : α → α) (h : ∀ x ∈ l, f x = x) :
    l.map f = l := by
  induction l with
  | nil => rfl
  | cons a t ih =>
      simp only [List.map_cons, h a (by simp), ih fun x hx => h x (by simp [hx])]

/-- C6: the identifier schemas accept a string iff it is exactly 32
lowercase hexadecimal characters; `"not-hex"` and a 31-character string of
`'a'` are rejected, as are wrong lengths and uppercase; validation happens
before the handler, so a rejected input produces no provider operation. -/
theorem c6_identifier_validation :
    (∀ s : String, cloudflareIdAccepts s = true ↔
      (s.data.length = 32 ∧ ∀ c ∈ s.data, isLowerHexCh c = true)) ∧
    cloudflareIdAccepts "not-hex" = false ∧
    cloudflareIdAccepts (String.mk (List.replicate 31 'a')) = false ∧
    cloudflareIdAccepts (String.mk (List.replicate 32 'a')) = true ∧
    cloudflareIdAccepts (String.mk (List.replicate 32 'A')) = false ∧
    (∀ ops z, cloudflareIdAccepts z = false →
      runZoneTool ops z = .error "Invalid Cloudflare ID format (expected 32-character hex string)") := by
  refine ⟨?_, by decide, by decide, by decide, by decide, ?_⟩
  · intro s
    simp [cloudflareIdAccepts, List.all_eq_true]
  · intro ops z h
    simp [runZoneTool, h]

theorem c6_identifier_validation_witness :
    cloudflareIdAccepts "0123456789abcdef0123456789abcdef" = true ∧
    runZoneTool (fun _ => []) "not-hex" =
      .error "Invalid Cloudflare ID format (expected 32-character hex string)" := by
  constructor
  · exact (c6_identifier_validation.1 "0123456789abcdef0123456789abcdef").mpr (by decide)
  · exact c6_identifier_validation.2.2.2.2.2 (fun _ => []) "not-hex" (by decide)

/-- C8: for minutes values accepted by the analytics tools (the range
1..1440 their input contracts enforce), clamping is the identity and the
constructed window ends at the invocation instant and spans exactly
`n * 60` seconds; for `n = 60` it spans exactly 3600 seconds. -/
theorem c8_window_from_minutes (nowMs n : Int) (h1 : 1 ≤ n) (h2 : n ≤ 1440) :
    (getTimeRange nowMs n).endTime = nowMs ∧
    clampMinutes n = n ∧
    (getTimeRange nowMs n).endTime - (getTimeRange nowMs n).startTime = n * 60 * 1000 ∧
    (getTimeRange nowMs 60).endTime - (getTimeRange nowMs 60).startTime = 3600 * 1000 := by
  refine ⟨rfl, ?_, by simp [getTimeRange], by simp [getTimeRange]⟩
  simp only [clampMinutes]
  omega

theorem c8_window_from_minutes_witness :
    (1 : Int) ≤ 60 ∧ (60 : Int) ≤ 1440 ∧
    (getTimeRange 1700000000000 60).endTime -
      (getTimeRange 1700000000000 60).startTime = 3600 * 1000 :=
  ⟨by decide, by decide,
    (c8_window_from_minutes 1700000000000 60 (by decide) (by decide)).2.2.2⟩

/-- C9: with no provider-reported error, a zone with zero events — whether
the zone appears with three empty groupings or no zone data comes back at
all — yields the summary with all three lists empty, not an error; an
error is produced exactly when the GraphQL error list is non-empty. -/
theorem c9_summary_empty_zones :
    (∀ gqlErrors : List String, gqlErrors = [] →
        getSecurityEventsSummary [] gqlErrors = .ok ⟨[], [], []⟩) ∧
    (∀ (gqlErrors : List String) (z : ZoneAgg) (rest : List ZoneAgg),
        gqlErrors = [] → z.byAction = [] → z.bySource = [] → z.byCountry = [] →
        getSecurityEventsSummary (z :: rest) gqlErrors = .ok ⟨[], [], []⟩) ∧
    (∀ (zones : List ZoneAgg) (gqlErrors : List String),
        (∃ e, getSecurityEventsSummary zones gqlErrors = .error e) ↔ gqlErrors ≠ []) := by
  refine ⟨?_, ?_, ?_⟩
  · rintro _ rfl
    simp [getSecurityEventsSummary, graphqlOutcome]
  · rintro _ z rest rfl ha hs hc
    simp [getSecurityEventsSummary, graphqlOutcome, ha, hs, hc]
  · intro zones gqlErrors
    cases gqlErrors with
    | nil => simp [getSecurityEventsSummary, graphqlOutcome]
    | cons e t => simp [getSecurityEventsSummary, graphqlOutcome]

theorem c9_summary_empty_zones_witness :
    getSecurityEventsSummary [] [] = .ok ⟨[], [], []⟩ ∧
    getSecurityEventsSummary [⟨[], [], []⟩] [] = .ok ⟨[], [], []⟩ ∧
    (∃ e, getSecurityEventsSummary [] ["boom"] = .error e) :=
  ⟨c9_summary_empty_zones.1 [] rfl,
   c9_summary_empty_zones.2.1 [] ⟨[], [], []⟩ [] rfl rfl rfl rfl,
   (c9_summary_empty_zones.2.2 [] ["boom"]).mpr (by simp)⟩

/-- C10: when the entry-point fetch inside `list_custom_rules` fails with
a message containing `"404"` or `"not found"`, the tool returns the
successful fallback text (which contains the empty rules list and the
no-rules message); any other failure is rethrown unchanged. -/
theorem c10_list_custom_rules_fallback (render : Ruleset → String) (e : String) :
    ((strIncludes e "404" || strIncludes e "not found") = true →
      listCustomRules render (.error e) = .text noRulesText ∧
      strIncludes noRulesText "\"rules\": []" = true ∧
      strIncludes noRulesText "No custom rules configured for this zone" = true) ∧
    ((strIncludes e "404" || strIncludes e "not found") = false →
      listCustomRules render (.error e) = .thrown e) := by
  constructor
  · intro h
    exact ⟨by simp [listCustomRules, h], by decide, by decide⟩
  · intro h
    simp [listCustomRules, h]

theorem c10_list_custom_rules_fallback_witness :
    listCustomRules (fun _ => "") (.error "Cloudflare API error: rule not found") =
      .text noRulesText ∧
    listCustomRules (fun _ => "") (.error "some other failure") =
      .thrown "some other failure" :=
  ⟨((c10_list_custom_rules_fallback (fun _ => "") _).1 (by decide)).1,
   (c10_list_custom_rules_fallback (fun _ => "") _).2 (by decide)⟩

/-- C3 counterexample: at a concrete PATCH response whose rule sequence
lacks the requested id, the call fails — but with the message
`"Updated rule not found in response"` (capital U, as thrown at
src/cloudflare-api.ts line 464), not the claimed lowercase
`"updated rule not found in response"`. -/
theorem c3_update_rule_message_counterexample :
    updateCustomRule
        (.ok { id := "rsid", name := "n", kind := "zone", phase := customPhase, rules := [] })
        "aaa"
      = .error "Updated rule not found in response" ∧
    ("Updated rule not found in response" : String) ≠
      "updated rule not found in response" := by
  exact ⟨rfl, by decide⟩

/-- C3 (amended): `updateCustomRule` locates the updated rule in the
returned ruleset's rule sequence by its id; when no rule with that id is
present it fails with the `ConsistencyError` message
`"Updated rule not found in response"` (capital U, unlike the claim's
lowercase spelling), and it fails this way exactly when the id is absent;
otherwise it returns the (first) rule with that id from the response. -/
theorem c3_update_rule_lookup (rs : Ruleset) (ruleId : String) :
    ((∀ r ∈ rs.rules, r.id ≠ ruleId) →
      updateCustomRule (.ok rs) ruleId = .error "Updated rule not found in response") ∧
    (∀ r, updateCustomRule (.ok rs) ruleId = .ok r →
      r.id = ruleId ∧ r ∈ rs.rules) ∧
    ((∃ r ∈ rs.rules, r.id = ruleId) →
      ∃ r, updateCustomRule (.ok rs) ruleId = .ok r) := by
  refine ⟨?_, ?_, ?_⟩
  · intro h
    have hn : rs.rules.find? (fun x => x.id == ruleId) = none := by
      rw [List.find?_eq_none]
      intro x hx
      simpa using h x hx
    simp [updateCustomRule, hn]
  · intro r h
    cases hf : rs.rules.find? (fun x => x.id == ruleId) with
    | none =>
        simp only [updateCustomRule, hf] at h
        exact absurd h (by simp)
    | some r0 =>
        simp only [updateCustomRule, hf, Except.ok.injEq] at h
        subst h
        exact ⟨by simpa using List.find?_some hf, List.mem_of_find?_eq_some hf⟩
  · intro h
    obtain ⟨r, hr, hid⟩ := h
    cases hf : rs.rules.find? (fun x => x.id == ruleId) with
    | none =>
        rw [List.find?_eq_none] at hf
        exact absurd (by simpa using hid) (hf r hr)
    | some r0 => exact ⟨r0, by simp [updateCustomRule, hf]⟩

theorem c3_update_rule_lookup_witness :
    updateCustomRule
        (.ok { id := "rsid", name := "n", kind := "zone", phase := customPhase, rules := [] })
        "aaa"
      = .error "Updated rule not found in response" ∧
    (∃ r, updateCustomRule
        (.ok { id := "rsid", name := "n", kind := "zone", phase := customPhase,
               rules := [{ id := "aaa", action := "block", expression := "e",
                           description := "d", enabled := true }] })
        "aaa"
      = .ok r) := by
  constructor
  · exact (c3_update_rule_lookup _ "aaa").1 (by intro r hr; simp at hr)
  · exact (c3_update_rule_lookup _ "aaa").2.2
      ⟨{ id := "aaa", action := "block", expression := "e",
         description := "d", enabled := true }, by simp, rfl⟩

/-- C4: `createCustomRule` extracts its return value from the append
response positionally, as the last element of the returned rule sequence —
for every response, the empty sequence included (where the JS index
`length - 1` yields `undefined`) — and not by searching the sequence for a
rule matching the submitted expression; every successful call returns the
last element of some non-empty append response. -/
theorem c4_create_returns_last_by_position :
    (∀ rs : Ruleset, appendReturn rs = rs.rules.getLast?) ∧
    (∀ rs : Ruleset, rs.rules = [] → appendReturn rs = none) ∧
    (∀ p st nr v, (createCustomRule p st nr).1 = Except.ok v →
      ∃ rs2 : Ruleset, v = appendReturn rs2 ∧ rs2.rules ≠ []) ∧
    (∀ e : String,
      appendReturn
          { id := "rsid", name := "n", kind := "zone", phase := customPhase,
            rules := [{ id := "first", action := "block", expression := e,
                        description := "d", enabled := true },
                      { id := "second", action := "log", expression := "other",
                        description := "d2", enabled := false }] }
        ≠
        List.find? (fun r => r.expression == e)
          [{ id := "first", action := "block", expression := e,
             description := "d", enabled := true },
           { id := "second", action := "log", expression := "other",
             description := "d2", enabled := false }]) := by
  have happ : ∀ p st rsId nr rs2 st3,
      providerAppendRule p st rsId nr = .ok (rs2, st3) → rs2.rules ≠ [] := by
    intro p st rsId nr rs2 st3 ha
    cases hf : st.rulesets.find? (fun x => x.id == rsId) with
    | none =>
        simp only [providerAppendRule, hf] at ha
        exact absurd ha (by simp)
    | some rs0 =>
        simp only [providerAppendRule, hf, Except.ok.injEq, Prod.mk.injEq] at ha
        rw [← ha.1]
        simp
  refine ⟨fun _ => rfl, ?_, ?_, ?_⟩
  · intro rs h
    simp [appendReturn, h]
  · intro p st nr v h
    rcases hg : getEntryPointRuleset p st customPhase with e | rs
    · rcases hb : (strIncludes e "404" || strIncludes e "not found") with _ | _
      · simp only [createCustomRule, hg, hb, Bool.false_eq_true, if_false] at h
        exact absurd h (by simp)
      · rcases hcr : providerCreateRuleset p st customPhase with ⟨rsNew, st2⟩
        rcases ha : providerAppendRule p st2 rsNew.id nr with e2 | ⟨rs2, st3⟩
        · simp only [createCustomRule, hg, hb, if_true, hcr, ha] at h
          exact absurd h (by simp)
        · simp only [createCustomRule, hg, hb, if_true, hcr, ha, Except.ok.injEq] at h
          exact ⟨rs2, h.symm, happ _ _ _ _ _ _ ha⟩
    · rcases ha : providerAppendRule p st rs.id nr with e2 | ⟨rs2, st3⟩
      · simp only [createCustomRule, hg, ha] at h
        exact absurd h (by simp)
      · simp only [createCustomRule, hg, ha, Except.ok.injEq] at h
        exact ⟨rs2, h.symm, happ _ _ _ _ _ _ ha⟩
  · intro e
    simp [appendReturn, List.find?_cons]

theorem c4_create_returns_last_by_position_witness :
    appendReturn { id := "rsid", name := "n", kind := "zone", phase := customPhase,
                   rules := [] } = none ∧
    appendReturn
        { id := "rsid", name := "n", kind := "zone", phase := customPhase,
          rules := [{ id := "first", action := "block", expression := "x",
                      description := "d", enabled := true },
                    { id := "second", action := "log", expression := "other",
                      description := "d2", enabled := false }] }
      ≠
      List.find? (fun r => r.expression == "x")
        [{ id := "first", action := "block", expression := "x",
           description := "d", enabled := true },
         { id := "second", action := "log", expression := "other",
           description := "d2", enabled := false }] :=
  ⟨c4_create_returns_last_by_position.2.1 _ rfl,
   c4_create_returns_last_by_position.2.2.2 "x"⟩

/-- Auxiliary for C5: patching the rules with a given id inside a rule
list commutes with the by-id lookup, because a patch never changes the
id. -/
theorem find?_map_patch (l : List RulesetRule) (q : String) (pch : RulePatch) :
    (l.map (fun r => if r.id == q then applyPatch r pch else r)).find?
        (fun r => r.id == q) =
      (l.find? (fun r => r.id == q)).map (fun r => applyPatch r pch) := by
  induction l with
  | nil => rfl
  | cons a t ih =>
      by_cases h : a.id = q
      · rw [List.map_cons,
          show (if a.id == q then applyPatch a pch else a) = applyPatch a pch from
            by simp [h],
          @List.find?_cons_of_pos _ (fun r => r.id == q) (applyPatch a pch) _
            (by simp [applyPatch, h]),
          @List.find?_cons_of_pos _ (fun r => r.id == q) a _ (by simp [h])]
        rfl
      · rw [List.map_cons,
          show (if a.id == q then applyPatch a pch else a) = a from by simp [h],
          @List.find?_cons_of_neg _ (fun r => r.id == q) a _ (by simp [h]),
          @List.find?_cons_of_neg _ (fun r => r.id == q) a _ (by simp [h]), ih]

/-- C5: `toggle_rule` is `updateCustomRule` with only `enabled` set, and
such a partial update leaves `description`, `expression` and `action` of
the returned rule unchanged from the rule's values before the call. -/
theorem c5_toggle_preserves_fields (p : Provider) (st : ZoneState)
    (rsId ruleId : String) (b : Bool) (rs : Ruleset) (r : RulesetRule)
    (hrs : st.rulesets.find? (fun x => x.id == rsId) = some rs)
    (hr : rs.rules.find? (fun x => x.id == ruleId) = some r) :
    ∃ r2, toggleRule p st rsId ruleId b = .ok r2 ∧
      r2.description = r.description ∧ r2.expression = r.expression ∧
      r2.action = r.action ∧ r2.enabled = b ∧ r2.id = r.id := by
  have hm := List.mem_of_find?_eq_some hr
  have hp := List.find?_some hr
  have hany : rs.rules.any (fun x => x.id == ruleId) = true :=
    List.any_eq_true.mpr ⟨r, hm, hp⟩
  have hpatch : providerPatchRule p st rsId ruleId (toggleUpdates b) =
      .ok { rs with
            rules := rs.rules.map
              (fun x => if x.id == ruleId then applyPatch x (toggleUpdates b) else x) } := by
    simp only [providerPatchRule, hrs, hany, if_true]
  refine ⟨applyPatch r (toggleUpdates b), ?_, rfl, rfl, rfl, rfl, rfl⟩
  simp only [toggleRule, hpatch, updateCustomRule, find?_map_patch, hr]
  rfl

theorem c5_toggle_preserves_fields_witness :
    ∃ r2, toggleRule
        ⟨"m", "rs1", fun n => "r" ++ toString n⟩
        ⟨[{ id := "rs1", name := "n", kind := "zone", phase := customPhase,
            rules := [{ id := "ru1", action := "block", expression := "e1",
                        description := "d1", enabled := true }] }], 0⟩
        "rs1" "ru1" false = .ok r2 ∧
      r2.description = "d1" ∧ r2.expression = "e1" ∧ r2.action = "block" ∧
      r2.enabled = false ∧ r2.id = "ru1" :=
  c5_toggle_preserves_fields
    ⟨"m", "rs1", fun n => "r" ++ toString n⟩
    ⟨[{ id := "rs1", name := "n", kind := "zone", phase := customPhase,
        rules := [{ id := "ru1", action := "block", expression := "e1",
                    description := "d1", enabled := true }] }], 0⟩
    "rs1" "ru1" false
    { id := "rs1", name := "n", kind := "zone", phase := customPhase,
      rules := [{ id := "ru1", action := "block", expression := "e1",
                  description := "d1", enabled := true }] }
    { id := "ru1", action := "block", expression := "e1",
      description := "d1", enabled := true }
    (by decide) (by decide)

/-- C2: every failure message leaving the modelled client on the REST
envelope path, the GraphQL path, or any path of `createCustomRule`
(including the create-ruleset-if-absent branch and its rethrow) is some
raw provider text passed through `sanitizeErrorMessage` behind a fixed
prefix — never the raw text itself. -/
theorem c2_failures_sanitized :
    (∀ (α : Type) (resp : Envelope α) (e : String),
        requestOutcome resp = .error e → SanitizedMsg e) ∧
    (∀ (α : Type) (d : α) (gqlErrors : List String) (e : String),
        graphqlOutcome d gqlErrors = .error e → SanitizedMsg e) ∧
    (∀ (p : Provider) (st : ZoneState) (nr : NewRule) (e : String),
        (createCustomRule p st nr).1 = .error e → SanitizedMsg e) := by
  have hreq : ∀ (α : Type) (resp : Envelope α) (e : String),
      requestOutcome resp = .error e → SanitizedMsg e := by
    intro α resp e h
    simp only [requestOutcome] at h
    split at h
    · exact absurd h (by simp)
    · simp only [Except.error.injEq] at h
      exact ⟨joinMessages resp.errors, Or.inl h.symm⟩
  have hget : ∀ (p : Provider) (st : ZoneState) (ph : String) (e : String),
      getEntryPointRuleset p st ph = .error e → SanitizedMsg e := by
    intro p st ph e h
    simp only [getEntryPointRuleset] at h
    split at h
    · exact absurd h (by simp [requestOutcome])
    · exact hreq _ _ _ h
  have happ : ∀ (p : Provider) (st : ZoneState) (rsId : String) (nr : NewRule) (e : String),
      providerAppendRule p st rsId nr = .error e → SanitizedMsg e := by
    intro p st rsId nr e h
    simp only [providerAppendRule] at h
    split at h
    · exact absurd h (by simp)
    · simp only [Except.error.injEq] at h
      exact ⟨p.notFoundMsg, Or.inl h.symm⟩
  refine ⟨hreq, ?_, ?_⟩
  · intro α d gqlErrors e h
    simp only [graphqlOutcome] at h
    split at h
    · exact absurd h (by simp)
    · simp only [Except.error.injEq] at h
      exact ⟨String.intercalate ", " gqlErrors, Or.inr h.symm⟩
  · intro p st nr e h
    rcases hg : getEntryPointRuleset p st customPhase with e0 | rs
    · rcases hb : (strIncludes e0 "404" || strIncludes e0 "not found") with _ | _
      · simp only [createCustomRule, hg, hb, Bool.false_eq_true, if_false,
          Except.error.injEq] at h
        subst h
        exact hget _ _ _ _ hg
      · rcases hcr : providerCreateRuleset p st customPhase with ⟨rsNew, st2⟩
        rcases ha : providerAppendRule p st2 rsNew.id nr with e2 | ⟨rs2, st3⟩
        · simp only [createCustomRule, hg, hb, if_true, hcr, ha,
            Except.error.injEq] at h
          subst h
          exact happ _ _ _ _ _ ha
        · simp only [createCustomRule, hg, hb, if_true, hcr, ha] at h
          exact absurd h (by simp)
    · rcases ha : providerAppendRule p st rs.id nr with e2 | ⟨rs2, st3⟩
      · simp only [createCustomRule, hg, ha, Except.error.injEq] at h
        subst h
        exact happ _ _ _ _ _ ha
      · simp only [createCustomRule, hg, ha] at h
        exact absurd h (by simp)

theorem c2_failures_sanitized_witness :
    SanitizedMsg ("Cloudflare API error: " ++ sanitizeErrorMessage "zone 42 not found") ∧
    requestOutcome
        { success := false,
          errors := [{ code := 7003, message := "zone 42 not found" }],
          result := (0 : Nat) }
      = .error ("Cloudflare API error: " ++ sanitizeErrorMessage "zone 42 not found") := by
  have h2 : requestOutcome
      { success := false,
        errors := [{ code := 7003, message := "zone 42 not found" }],
        result := (0 : Nat) }
      = .error ("Cloudflare API error: " ++ sanitizeErrorMessage "zone 42 not found") := by
    have hj : joinMessages [{ code := 7003, message := "zone 42 not found" }] =
        "zone 42 not found" := by decide
    simp [requestOutcome, hj]
  exact ⟨c2_failures_sanitized.1 Nat _ _ h2, h2⟩

/-- Auxiliary: joining a single provider error message is that message. -/
theorem joinMessages_single (c : Nat) (m : String) :
    joinMessages [{ code := c, message := m }] = m := rfl

/-- C1: on a zone with no custom-phase entry-point ruleset, and a provider
whose fresh ruleset id collides with no existing one and whose
missing-ruleset error passes the `404`/`not found` test, `createCustomRule`
performs exactly one ruleset creation followed by exactly one rule append
(witnessed by its operation trace); a second call performs no creation,
only an append — leaving a single custom-phase ruleset holding two rules,
never two rulesets. -/
theorem c1_lazy_unique_entrypoint (p : Provider) (st : ZoneState) (nr nr2 : NewRule)
    (hfresh : ∀ rs ∈ st.rulesets, rs.phase ≠ customPhase)
    (hid : ∀ rs ∈ st.rulesets, rs.id ≠ p.freshRulesetId)
    (hbr : (strIncludes ("Cloudflare API error: " ++ sanitizeErrorMessage p.notFoundMsg) "404" ||
            strIncludes ("Cloudflare API error: " ++ sanitizeErrorMessage p.notFoundMsg)
              "not found") = true) :
    ∃ st1 r1,
      createCustomRule p st nr =
        (.ok (some r1), st1,
          [Op.getEntry customPhase, Op.createRuleset customPhase,
           Op.appendRule p.freshRulesetId]) ∧
      countCustom st1 = 1 ∧
      (∃ rs1, findEntryPoint st1 customPhase = some rs1 ∧ rs1.rules.length = 1) ∧
      ∃ st2 r2,
        createCustomRule p st1 nr2 =
          (.ok (some r2), st2,
            [Op.getEntry customPhase, Op.appendRule p.freshRulesetId]) ∧
        countCustom st2 = 1 ∧
        ∃ rs2, findEntryPoint st2 customPhase = some rs2 ∧ rs2.rules.length = 2 := by
  have hfind0id : st.rulesets.find? (fun x => x.id == p.freshRulesetId) = none := by
    rw [List.find?_eq_none]
    intro x hx
    simpa using hid x hx
  have hfind0ph : st.rulesets.find? (fun x => x.phase == customPhase) = none := by
    rw [List.find?_eq_none]
    intro x hx
    simpa using hfresh x hx
  have hmapid : ∀ rsX : Ruleset,
      st.rulesets.map (fun x => if x.id == p.freshRulesetId then rsX else x) =
        st.rulesets := by
    intro rsX
    apply list_map_eq_self
    intro x hx
    have hne : (x.id == p.freshRulesetId) = false := by
      simpa using hid x hx
    simp [hne]
  have hmsg : getEntryPointRuleset p st customPhase =
      .error ("Cloudflare API error: " ++ sanitizeErrorMessage p.notFoundMsg) := by
    simp [getEntryPointRuleset, findEntryPoint, hfind0ph, requestOutcome,
      joinMessages_single]
  have ha1 : providerAppendRule p
      { rulesets := st.rulesets ++
          [{ id := p.freshRulesetId, name := "Custom Firewall Rules", kind := "zone",
             phase := customPhase, rules := [] }],
        counter := st.counter }
      p.freshRulesetId nr =
      .ok ({ id := p.freshRulesetId, name := "Custom Firewall Rules", kind := "zone",
             phase := customPhase,
             rules := [{ id := p.freshRuleId st.counter, action := nr.action,
                         expression := nr.expression, description := nr.description,
                         enabled := nr.enabled }] },
           { rulesets := st.rulesets ++
               [{ id := p.freshRulesetId, name := "Custom Firewall Rules",
                  kind := "zone", phase := customPhase,
                  rules := [{ id := p.freshRuleId st.counter, action := nr.action,
                              expression := nr.expression,
                              description := nr.description,
                              enabled := nr.enabled }] }],
             counter := st.counter + 1 }) := by
    simp only [providerAppendRule, List.find?_append, hfind0id, Option.none_or]
    rw [List.find?_cons_of_pos _ (by simp)]
    simp only [Except.ok.injEq, Prod.mk.injEq, List.map_append, hmapid]
    simp
  have hcall1 : createCustomRule p st nr =
      (.ok (some { id := p.freshRuleId st.counter, action := nr.action,
                   expression := nr.expression, description := nr.description,
                   enabled := nr.enabled }),
       { rulesets := st.rulesets ++
           [{ id := p.freshRulesetId, name := "Custom Firewall Rules", kind := "zone",
              phase := customPhase,
              rules := [{ id := p.freshRuleId st.counter, action := nr.action,
                          expression := nr.expression, description := nr.description,
                          enabled := nr.enabled }] }],
         counter := st.counter + 1 },
       [Op.getEntry customPhase, Op.createRuleset customPhase,
        Op.appendRule p.freshRulesetId]) := by
    simp only [createCustomRule, hmsg, hbr, if_true, providerCreateRuleset, ha1,
      appendReturn]
    simp
  have hfep1 : findEntryPoint
      { rulesets := st.rulesets ++
          [{ id := p.freshRulesetId, name := "Custom Firewall Rules", kind := "zone",
             phase := customPhase,
             rules := [{ id := p.freshRuleId st.counter, action := nr.action,
                         expression := nr.expression, description := nr.description,
                         enabled := nr.enabled }] }],
        counter := st.counter + 1 } customPhase =
      some { id := p.freshRulesetId, name := "Custom Firewall Rules", kind := "zone",
             phase := customPhase,
             rules := [{ id := p.freshRuleId st.counter, action := nr.action,
                         expression := nr.expression, description := nr.description,
                         enabled := nr.enabled }] } := by
    simp only [findEntryPoint, List.find?_append, hfind0ph, Option.none_or]
    rw [List.find?_cons_of_pos _ (by simp)]
  have hcount1 : countCustom
      { rulesets := st.rulesets ++
          [{ id := p.freshRulesetId, name := "Custom Firewall Rules", kind := "zone",
             phase := customPhase,
             rules := [{ id := p.freshRuleId st.counter, action := nr.action,
                         expression := nr.expression, description := nr.description,
                         enabled := nr.enabled }] }],
        counter := st.counter + 1 } = 1 := by
    have hfil : st.rulesets.filter (fun rs => rs.phase == customPhase) = [] :=
      List.filter_eq_nil_iff.mpr (fun a ha => by simpa using hfresh a ha)
    simp [countCustom, List.filter_append, hfil]
  have hget2 : getEntryPointRuleset p
      { rulesets := st.rulesets ++
          [{ id := p.freshRulesetId, name := "Custom Firewall Rules", kind := "zone",
             phase := customPhase,
             rules := [{ id := p.freshRuleId st.counter, action := nr.action,
                         expression := nr.expression, description := nr.description,
                         enabled := nr.enabled }] }],
        counter := st.counter + 1 } customPhase =
      .ok { id := p.freshRulesetId, name := "Custom Firewall Rules", kind := "zone",
            phase := customPhase,
            rules := [{ id := p.freshRuleId st.counter, action := nr.action,
                        expression := nr.expression, description := nr.description,
                        enabled := nr.enabled }] } := by
    simp only [getEntryPointRuleset, hfep1, requestOutcome]
    rfl
  have ha2 : providerAppendRule p
      { rulesets := st.rulesets ++
          [{ id := p.freshRulesetId, name := "Custom Firewall Rules", kind := "zone",
             phase := customPhase,
             rules := [{ id := p.freshRuleId st.counter, action := nr.action,
                         expression := nr.expression, description := nr.description,
                         enabled := nr.enabled }] }],
        counter := st.counter + 1 }
      p.freshRulesetId nr2 =
      .ok ({ id := p.freshRulesetId, name := "Custom Firewall Rules", kind := "zone",
             phase := customPhase,
             rules := [{ id := p.freshRuleId st.counter, action := nr.action,
                         expression := nr.expression, description := nr.description,
                         enabled := nr.enabled },
                       { id := p.freshRuleId (st.counter + 1), action := nr2.action,
                         expression := nr2.expression, description := nr2.description,
                         enabled := nr2.enabled }] },
           { rulesets := st.rulesets ++
               [{ id := p.freshRulesetId, name := "Custom Firewall Rules",
                  kind := "zone", phase := customPhase,
                  rules := [{ id := p.freshRuleId st.counter, action := nr.action,
                              expression := nr.expression,
                              description := nr.description,
                              enabled := nr.enabled },
                            { id := p.freshRuleId (st.counter + 1),
                              action := nr2.action, expression := nr2.expression,
                              description := nr2.description,
                              enabled := nr2.enabled }] }],
             counter := st.counter + 1 + 1 }) := by
    simp only [providerAppendRule, List.find?_append, hfind0id, Option.none_or]
    rw [List.find?_cons_of_pos _ (by simp)]
    simp only [Except.ok.injEq, Prod.mk.injEq, List.map_append, hmapid]
    simp
  have hcall2 : createCustomRule p
      { rulesets := st.rulesets ++
          [{ id := p.freshRulesetId, name := "Custom Firewall Rules", kind := "zone",
             phase := customPhase,
             rules := [{ id := p.freshRuleId st.counter, action := nr.action,
                         expression := nr.expression, description := nr.description,
                         enabled := nr.enabled }] }],
        counter := st.counter + 1 } nr2 =
      (.ok (some { id := p.freshRuleId (st.counter + 1), action := nr2.action,
                   expression := nr2.expression, description := nr2.description,
                   enabled := nr2.enabled }),
       { rulesets := st.rulesets ++
           [{ id := p.freshRulesetId, name := "Custom Firewall Rules", kind := "zone",
              phase := customPhase,
              rules := [{ id := p.freshRuleId st.counter, action := nr.action,
                          expression := nr.expression, description := nr.description,
                          enabled := nr.enabled },
                        { id := p.freshRuleId (st.counter + 1), action := nr2.action,
                          expression := nr2.expression, description := nr2.description,
                          enabled := nr2.enabled }] }],
         counter := st.counter + 1 + 1 },
       [Op.getEntry customPhase, Op.appendRule p.freshRulesetId]) := by
    simp only [createCustomRule, hget2, ha2, appendReturn]
    simp
  have hfep2 : findEntryPoint
      { rulesets := st.rulesets ++
          [{ id := p.freshRulesetId, name := "Custom Firewall Rules", kind := "zone",
             phase := customPhase,
             rules := [{ id := p.freshRuleId st.counter, action := nr.action,
                         expression := nr.expression, description := nr.description,
                         enabled := nr.enabled },
                       { id := p.freshRuleId (st.counter + 1), action := nr2.action,
                         expression := nr2.expression, description := nr2.description,
                         enabled := nr2.enabled }] }],
        counter := st.counter + 1 + 1 } customPhase =
      some { id := p.freshRulesetId, name := "Custom Firewall Rules", kind := "zone",
             phase := customPhase,
             rules := [{ id := p.freshRuleId st.counter, action := nr.action,
                         expression := nr.expression, description := nr.description,
                         enabled := nr.enabled },
                       { id := p.freshRuleId (st.counter + 1), action := nr2.action,
                         expression := nr2.expression, description := nr2.description,
                         enabled := nr2.enabled }] } := by
    simp only [findEntryPoint, List.find?_append, hfind0ph, Option.none_or]
    rw [List.find?_cons_of_pos _ (by simp)]
  have hcount2 : countCustom
      { rulesets := st.rulesets ++
          [{ id := p.freshRulesetId, name := "Custom Firewall Rules", kind := "zone",
             phase := customPhase,
             rules := [{ id := p.freshRuleId st.counter, action := nr.action,
                         expression := nr.expression, description := nr.description,
                         enabled := nr.enabled },
                       { id := p.freshRuleId (st.counter + 1), action := nr2.action,
                         expression := nr2.expression, description := nr2.description,
                         enabled := nr2.enabled }] }],
        counter := st.counter + 1 + 1 } = 1 := by
    have hfil : st.rulesets.filter (fun rs => rs.phase == customPhase) = [] :=
      List.filter_eq_nil_iff.mpr (fun a ha => by simpa using hfresh a ha)
    simp [countCustom, List.filter_append, hfil]
  exact ⟨_, _, hcall1, hcount1, ⟨_, hfep1, rfl⟩,
    ⟨_, _, hcall2, hcount2, ⟨_, hfep2, rfl⟩⟩⟩

theorem c1_lazy_unique_entrypoint_witness :
    ∃ st1 r1,
      createCustomRule
          { notFoundMsg := "ruleset not found", freshRulesetId := "f1",
            freshRuleId := fun n => "r" ++ toString n }
          { rulesets := [], counter := 0 }
          { description := "d", expression := "e", action := "block", enabled := true } =
        (.ok (some r1), st1,
          [Op.getEntry customPhase, Op.createRuleset customPhase, Op.appendRule "f1"]) ∧
      countCustom st1 = 1 ∧
      (∃ rs1, findEntryPoint st1 customPhase = some rs1 ∧ rs1.rules.length = 1) ∧
      ∃ st2 r2,
        createCustomRule
            { notFoundMsg := "ruleset not found", freshRulesetId := "f1",
              freshRuleId := fun n => "r" ++ toString n }
            st1
            { description := "d2", expression := "e2", action := "log",
              enabled := false } =
          (.ok (some r2), st2, [Op.getEntry customPhase, Op.appendRule "f1"]) ∧
        countCustom st2 = 1 ∧
        ∃ rs2, findEntryPoint st2 customPhase = some rs2 ∧ rs2.rules.length = 2 :=
  c1_lazy_unique_entrypoint
    { notFoundMsg := "ruleset not found", freshRulesetId := "f1",
      freshRuleId := fun n => "r" ++ toString n }
    { rulesets := [], counter := 0 }
    { description := "d", expression := "e", action := "block", enabled := true }
    { description := "d2", expression := "e2", action := "log", enabled := false }
    (by simp) (by simp) (by decide)

/-! ## Infrastructure for the sanitizer idempotence proof -/

/-- Strong induction on the length of a character list. -/
theorem listStrongInd {P : List Char → Prop}
    (ind : ∀ u, (∀ v : List Char, v.length < u.length → P v) → P u) : ∀ u, P u := by
  intro u
  have key : ∀ n, ∀ v : List Char, v.length ≤ n → P v := by
    intro n
    induction n with
    | zero =>
        intro v hv
        exact ind v (fun w hw => absurd (Nat.lt_of_lt_of_le hw hv) (by omega))
    | succ n ihn =>
        intro v hv
        exact ind v (fun w hw => ihn w (by omega))
  exact key u.length u le_rfl

theorem runL_nil (p : Char → Bool) : runL p [] = 0 := rfl

theorem runL_cons (p : Char → Bool) (c : Char) (t : List Char) :
    runL p (c :: t) = if p c then runL p t + 1 else 0 := by
  simp only [runL, List.takeWhile_cons]
  split <;> simp

theorem runL_le_length (p : Char → Bool) (u : List Char) : runL p u ≤ u.length := by
  induction u with
  | nil => simp [runL_nil]
  | cons c t ih =>
      rw [runL_cons]
      split <;> simp <;> omega

/-- The run covers the whole list exactly when every element satisfies the
predicate. -/
theorem runL_eq_length_iff (p : Char → Bool) (u : List Char) :
    runL p u = u.length ↔ ∀ c ∈ u, p c = true := by
  induction u with
  | nil => simp [runL_nil]
  | cons c t ih =>
      rw [runL_cons]
      by_cases h : p c = true
      · have := runL_le_length p t
        simp [h, ih]
      · simp [h]

theorem runL_lt_of_mem (p : Char → Bool) {u : List Char} {c : Char}
    (hc : c ∈ u) (hp : p c = false) : runL p u < u.length := by
  rcases Nat.lt_or_ge (runL p u) u.length with h | h
  · exact h
  · have heq : runL p u = u.length :=
      Nat.le_antisymm (runL_le_length p u) h
    have := (runL_eq_length_iff p u).mp heq c hc
    rw [this] at hp
    exact absurd hp (by simp)

/-- A run stops no later than an element failing the predicate: appending
past such an element never changes the run. -/
theorem takeWhile_append_stop (p : Char → Bool) (A Z : List Char) (b : Char)
    (hb : p b = false) : (A ++ b :: Z).takeWhile p = A.takeWhile p := by
  induction A with
  | nil => simp [List.takeWhile_cons, hb]
  | cons a t ih =>
      simp only [List.cons_append, List.takeWhile_cons]
      split <;> simp [ih]

theorem runL_append_stop (p : Char → Bool) (A Z : List Char) (b : Char)
    (hb : p b = false) : runL p (A ++ b :: Z) = runL p A := by
  simp [runL, takeWhile_append_stop p A Z b hb]

theorem runL_prefix_le (p : Char → Bool) (A Q : List Char) :
    runL p A ≤ runL p (A ++ Q) := by
  induction A with
  | nil => simp [runL_nil]
  | cons a t ih =>
      simp only [List.cons_append, runL_cons]
      split <;> omega

theorem runL_append_full (p : Char → Bool) (A B : List Char)
    (h : ∀ c ∈ A, p c = true) : runL p (A ++ B) = A.length + runL p B := by
  induction A with
  | nil => simp
  | cons a t ih =>
      have ha : p a = true := h a (by simp)
      simp only [List.cons_append, runL_cons, ha, if_true, List.length_cons]
      rw [ih (fun c hc => h c (by simp [hc]))]
      omega

/-- When the run stops strictly inside the list, the stopping character
fails the predicate. -/
theorem runL_get_stop (p : Char → Bool) (u : List Char) (h : runL p u < u.length) :
    ∃ c, u[runL p u]? = some c ∧ p c = false := by
  induction u with
  | nil => simp at h
  | cons a t ih =>
      rw [runL_cons] at h ⊢
      by_cases ha : p a = true
      · simp only [ha, if_true] at h ⊢
        have := ih (by simpa using h)
        simpa using this
      · have ha2 : p a = false := by simp at ha; exact ha
        simp [ha2]

/-- Characters strictly inside the run satisfy the predicate. -/
theorem runL_get_within (p : Char → Bool) (u : List Char) (i : Nat)
    (h : i < runL p u) : ∃ c, u[i]? = some c ∧ p c = true := by
  induction u generalizing i with
  | nil => simp [runL_nil] at h
  | cons a t ih =>
      rw [runL_cons] at h
      by_cases ha : p a = true
      · simp only [ha, if_true] at h
        cases i with
        | zero => exact ⟨a, by simp, ha⟩
        | succ j =>
            have := ih j (by omega)
            simpa using this
      · simp [ha] at h

/-- A generic scan of the empty input is empty, whatever the fuel. -/
theorem scanG_nil (m : List Char → Option Nat) (mk : List Char)
    (hnil : m [] = none) : ∀ n, scanG m mk n [] = [] := by
  intro n
  cases n with
  | zero => rfl
  | succ n => simp [scanG, hnil]

/-- Fuel is irrelevant once it covers the input length. -/
theorem scanG_fuel (m : List Char → Option Nat) (mk : List Char)
    (hnil : m [] = none) (hpos : ∀ u k, m u = some k → 1 ≤ k) :
    ∀ (n1 n2 : Nat) (u : List Char), u.length ≤ n1 → u.length ≤ n2 →
      scanG m mk n1 u = scanG m mk n2 u := by
  intro n1
  induction n1 with
  | zero =>
      intro n2 u h1 h2
      have hu : u = [] := by
        cases u with
        | nil => rfl
        | cons c t => simp at h1
      subst hu
      rw [scanG_nil m mk hnil, scanG_nil m mk hnil]
  | succ n ihn =>
      intro n2 u h1 h2
      cases u with
      | nil => rw [scanG_nil m mk hnil, scanG_nil m mk hnil]
      | cons c t =>
          cases n2 with
          | zero => simp at h2
          | succ n2 =>
              cases hm : m (c :: t) with
              | some k =>
                  have hk := hpos _ k hm
                  simp only [scanG, hm]
                  have hd1 : ((c :: t).drop k).length ≤ n := by
                    simp only [List.length_drop, List.length_cons]
                    simp only [List.length_cons] at h1
                    omega
                  have hd2 : ((c :: t).drop k).length ≤ n2 := by
                    simp only [List.length_drop, List.length_cons]
                    simp only [List.length_cons] at h2
                    omega
                  rw [ihn n2 _ hd1 hd2]
              | none =>
                  simp only [scanG, hm]
                  have ht1 : t.length ≤ n := by
                    simp only [List.length_cons] at h1
                    omega
                  have ht2 : t.length ≤ n2 := by
                    simp only [List.length_cons] at h2
                    omega
                  rw [ihn n2 t ht1 ht2]

theorem matcherRun_nil (M : Matcher) : M.run [] = [] := rfl

/-- Head-match step of a global replacement. -/
theorem matcherRun_match (M : Matcher) {u : List Char} {k : Nat}
    (h : M.m u = some k) : M.run u = M.rep ++ M.run (u.drop k) := by
  have hne : u ≠ [] := by
    intro hcon
    rw [hcon, M.hnil] at h
    exact absurd h (by simp)
  obtain ⟨c, t, rfl⟩ : ∃ c t, u = c :: t := by
    cases u with
    | nil => exact absurd rfl hne
    | cons c t => exact ⟨c, t, rfl⟩
  have hd : ((c :: t).drop k).length ≤ t.length := by
    simp only [List.length_drop, List.length_cons]
    have := M.hpos _ k h
    omega
  show scanG M.m M.rep (t.length + 1) (c :: t) = _
  simp only [scanG, h]
  rw [scanG_fuel M.m M.rep M.hnil M.hpos t.length ((c :: t).drop k).length
    ((c :: t).drop k) hd le_rfl]
  rfl

/-- Copy step of a global replacement. -/
theorem matcherRun_copy (M : Matcher) {c : Char} {t : List Char}
    (h : M.m (c :: t) = none) : M.run (c :: t) = c :: M.run t := by
  show scanG M.m M.rep (t.length + 1) (c :: t) = _
  simp only [scanG, h]
  rfl

theorem ipGroups_pos (n : Nat) (u : List Char) (m : Nat)
    (h : ipGroups n u = some m) : 1 ≤ m := by
  cases n with
  | zero =>
      simp only [ipGroups] at h
      split at h
      · split at h
        · split at h
          · exact absurd h (by simp)
          · simp only [Option.some.injEq] at h; omega
        · simp only [Option.some.injEq] at h; omega
      · exact absurd h (by simp)
  | succ n =>
      simp only [ipGroups] at h
      split at h
      · split at h
        · split at h
          · simp only [Option.some.injEq] at h; omega
          · exact absurd h (by simp)
        · exact absurd h (by simp)
      · exact absurd h (by simp)

theorem matchIp_true (u : List Char) : matchIp true u = none := rfl

theorem matchIp_nil (b : Bool) : matchIp b [] = none := by
  cases b <;> rfl

theorem matchIp_pos (b : Bool) (u : List Char) (k : Nat)
    (h : matchIp b u = some k) : 1 ≤ k := by
  cases b with
  | true => exact absurd h (by simp [matchIp_true])
  | false => exact ipGroups_pos 3 u k h

theorem matchIp_b_false {b : Bool} {u : List Char} {k : Nat}
    (h : matchIp b u = some k) : b = false := by
  cases b with
  | true => exact absurd h (by simp [matchIp_true])
  | false => rfl

theorem ipGroups_none_head (n : Nat) (c : Char) (X : List Char)
    (hc : isDigitCh c = false) : ipGroups n (c :: X) = none := by
  have hr : runL isDigitCh (c :: X) = 0 := by
    rw [runL_cons, hc]
    simp
  cases n with
  | zero =>
      simp only [ipGroups, hr]
      norm_num
  | succ n =>
      simp only [ipGroups, hr]
      norm_num

theorem matchIp_none_head (b : Bool) (c : Char) (X : List Char)
    (hc : isDigitCh c = false) : matchIp b (c :: X) = none := by
  cases b with
  | true => exact matchIp_true _
  | false => exact ipGroups_none_head 3 c X hc

theorem matchIp_head_digit {b : Bool} {u : List Char} {k : Nat}
    (h : matchIp b u = some k) : ∃ c t, u = c :: t ∧ isDigitCh c = true := by
  cases u with
  | nil => exact absurd h (by simp [matchIp_nil])
  | cons c t =>
      refine ⟨c, t, rfl, ?_⟩
      by_contra hcon
      have hc : isDigitCh c = false := by
        cases hdc : isDigitCh c with
        | false => rfl
        | true => exact absurd hdc hcon
      rw [matchIp_none_head b c t hc] at h
      exact absurd h (by simp)

/-- The character right after an IPv4 match (if any) is not a word
character: the trailing boundary. -/
theorem ipGroups_trailing : ∀ (n : Nat) (u : List Char) (m : Nat),
    ipGroups n u = some m → ∀ c t', u.drop m = c :: t' → isWordCh c = false := by
  intro n
  induction n with
  | zero =>
      intro u m h c t' hd
      have hum : u[m]? = some c := by
        have h0 : (u.drop m)[0]? = u[m + 0]? := List.getElem?_drop u m 0
        rw [hd] at h0
        simpa using h0.symm
      cases hg : u[runL isDigitCh u]? with
      | some c0 =>
          simp only [ipGroups, hg] at h
          split at h
          · split at h
            · exact absurd h (by simp)
            · rename_i hw
              simp only [Option.some.injEq] at h
              subst h
              rw [hum] at hg
              simp only [Option.some.injEq] at hg
              subst hg
              cases hic : isWordCh c with
              | false => rfl
              | true => exact absurd hic hw
          · exact absurd h (by simp)
      | none =>
          simp only [ipGroups, hg] at h
          split at h
          · simp only [Option.some.injEq] at h
            subst h
            rw [hum] at hg
            exact absurd hg (by simp)
          · exact absurd h (by simp)
  | succ n ih =>
      intro u m h c t' hd
      simp only [ipGroups] at h
      split at h
      · split at h
        · cases hrec : ipGroups n (u.drop (runL isDigitCh u + 1)) with
          | some m2 =>
              rw [hrec] at h
              simp only [Option.some.injEq] at h
              subst h
              refine ih _ m2 hrec c t' ?_
              rw [List.drop_drop]
              exact hd
          | none =>
              rw [hrec] at h
              exact absurd h (by simp)
        · exact absurd h (by simp)
      · exact absurd h (by simp)

theorem matchIp_trailing {b : Bool} {u : List Char} {k : Nat}
    (h : matchIp b u = some k) : ∀ c t', u.drop k = c :: t' → isWordCh c = false := by
  cases b with
  | true => exact absurd h (by simp [matchIp_true])
  | false => exact ipGroups_trailing 3 u k h

theorem scanIpF_nil (b : Bool) : ∀ n, scanIpF n b [] = [] := by
  intro n
  cases n with
  | zero => rfl
  | succ n => simp [scanIpF, matchIp_nil]

theorem scanIpF_fuel :
    ∀ (n1 n2 : Nat) (b : Bool) (u : List Char), u.length ≤ n1 → u.length ≤ n2 →
      scanIpF n1 b u = scanIpF n2 b u := by
  intro n1
  induction n1 with
  | zero =>
      intro n2 b u h1 h2
      have hu : u = [] := by
        cases u with
        | nil => rfl
        | cons c t => simp at h1
      subst hu
      rw [scanIpF_nil, scanIpF_nil]
  | succ n ihn =>
      intro n2 b u h1 h2
      cases u with
      | nil => rw [scanIpF_nil, scanIpF_nil]
      | cons c t =>
          cases n2 with
          | zero => simp at h2
          | succ n2 =>
              cases hm : matchIp b (c :: t) with
              | some k =>
                  have hk := matchIp_pos b _ k hm
                  simp only [scanIpF, hm]
                  have hd1 : ((c :: t).drop k).length ≤ n := by
                    simp only [List.length_drop, List.length_cons]
                    simp only [List.length_cons] at h1
                    omega
                  have hd2 : ((c :: t).drop k).length ≤ n2 := by
                    simp only [List.length_drop, List.length_cons]
                    simp only [List.length_cons] at h2
                    omega
                  rw [ihn n2 true _ hd1 hd2]
              | none =>
                  simp only [scanIpF, hm]
                  have ht1 : t.length ≤ n := by
                    simp only [List.length_cons] at h1
                    omega
                  have ht2 : t.length ≤ n2 := by
                    simp only [List.length_cons] at h2
                    omega
                  rw [ihn n2 (isWordCh c) t ht1 ht2]

theorem scanIp_nil (b : Bool) : scanIp b [] = [] := rfl

theorem scanIp_match {b : Bool} {u : List Char} {k : Nat}
    (h : matchIp b u = some k) : scanIp b u = markerIp ++ scanIp true (u.drop k) := by
  obtain ⟨c, t, rfl, _⟩ := matchIp_head_digit h
  have hd : ((c :: t).drop k).length ≤ t.length := by
    simp only [List.length_drop, List.length_cons]
    have := matchIp_pos b _ k h
    omega
  show scanIpF (t.length + 1) b (c :: t) = _
  simp only [scanIpF, h]
  rw [scanIpF_fuel t.length ((c :: t).drop k).length true ((c :: t).drop k) hd le_rfl]
  rfl

theorem scanIp_copy {b : Bool} {c : Char} {t : List Char}
    (h : matchIp b (c :: t) = none) : scanIp b (c :: t) = c :: scanIp (isWordCh c) t := by
  show scanIpF (t.length + 1) b (c :: t) = _
  simp only [scanIpF, h]
  rfl

/-! ## Structure of scanner outputs and no-match predicates -/

/-- A scan either changes nothing or splits the input at its first match. -/
theorem matcher_struct (M : Matcher) : ∀ t, M.run t = t ∨
    ∃ P Q kq, t = P ++ Q ∧ M.m Q = some kq ∧
      M.run t = P ++ (M.rep ++ M.run (Q.drop kq)) := by
  refine listStrongInd ?_
  intro t ih
  cases hm : M.m t with
  | some k =>
      exact Or.inr ⟨[], t, k, by simp, hm, by simp [matcherRun_match M hm]⟩
  | none =>
      cases t with
      | nil => exact Or.inl (matcherRun_nil M)
      | cons c t' =>
          rcases ih t' (by simp) with hid | ⟨P, Q, kq, hPQ, hQ, heq⟩
          · exact Or.inl (by rw [matcherRun_copy M hm, hid])
          · refine Or.inr ⟨c :: P, Q, kq, by rw [hPQ]; rfl, hQ, ?_⟩
            rw [matcherRun_copy M hm, heq]
            rfl

/-- IPv4 variant of `matcher_struct`, tracking the boundary context. -/
theorem scanIp_struct : ∀ (b : Bool) (t : List Char), scanIp b t = t ∨
    ∃ P Q kq, t = P ++ Q ∧ matchIp (wordCtx b P) Q = some kq ∧
      scanIp b t = P ++ (markerIp ++ scanIp true (Q.drop kq)) := by
  intro b t
  induction t using listStrongInd generalizing b with
  | _ t ih =>
  cases hm : matchIp b t with
  | some k =>
      exact Or.inr ⟨[], t, k, by simp, by simpa [wordCtx] using hm,
        by simp [scanIp_match hm]⟩
  | none =>
      cases t with
      | nil => exact Or.inl (scanIp_nil b)
      | cons c t' =>
          rcases ih t' (by simp) (isWordCh c) with hid | ⟨P, Q, kq, hPQ, hQ, heq⟩
          · exact Or.inl (by rw [scanIp_copy hm, hid])
          · refine Or.inr ⟨c :: P, Q, kq, by rw [hPQ]; rfl, ?_, ?_⟩
            · have hctx : wordCtx b (c :: P) = wordCtx (isWordCh c) P := by
                simp only [wordCtx, List.getLast?_cons]
                cases hP : P.getLast? <;> simp
              rw [hctx]
              exact hQ
            · rw [scanIp_copy hm, heq]
              rfl

theorem wordCtx_nil (b : Bool) : wordCtx b [] = b := rfl

theorem wordCtx_cons (b : Bool) (c : Char) (P : List Char) :
    wordCtx b (c :: P) = wordCtx (isWordCh c) P := by
  simp only [wordCtx, List.getLast?_cons]
  cases hP : P.getLast? <;> simp

theorem wordCtx_append (b : Bool) (A P : List Char) :
    wordCtx b (A ++ P) = wordCtx (wordCtx b A) P := by
  simp only [wordCtx, List.getLast?_append]
  cases hP : P.getLast? <;> simp

/-- A nonempty suffix ends in the same character as the whole list. -/
theorem suffix_getLast? {σ l : List Char} (h : σ <:+ l) (hne : σ ≠ []) :
    σ.getLast? = l.getLast? := by
  obtain ⟨w, rfl⟩ := h
  rw [List.getLast?_append]
  cases hσ : σ.getLast? with
  | some c => simp
  | none => exact absurd (List.getLast?_eq_none_iff.mp hσ) hne

/-- Suffixes of an appended list: proper tails of the right part, or a
suffix of the left part glued to the whole right part. -/
theorem suffix_append_cases {v A B : List Char} (h : v <:+ A ++ B) :
    v <:+ B ∨ ∃ σ, σ <:+ A ∧ σ ≠ [] ∧ v = σ ++ B := by
  obtain ⟨w, hw⟩ := h
  rcases List.append_eq_append_iff.mp hw with ⟨a2, ha, hb⟩ | ⟨c2, ha, hb⟩
  · subst ha
    cases a2 with
    | nil =>
        simp only [List.nil_append] at hb
        exact Or.inl ⟨[], by simp [hb]⟩
    | cons x xs =>
        refine Or.inr ⟨x :: xs, ⟨w, rfl⟩, by simp, hb⟩
  · subst hb
    exact Or.inl ⟨c2, rfl⟩

theorem noMatch_nil {m : List Char → Option Nat} (hnil : m [] = none) :
    NoMatch m [] := by
  intro v hv
  have : v = [] := List.eq_nil_of_suffix_nil hv
  rw [this]
  exact hnil

theorem noMatch_suffix {m : List Char → Option Nat} {u v : List Char}
    (h : NoMatch m u) (hv : v <:+ u) : NoMatch m v :=
  fun w hw => h w (hw.trans hv)

/-- A pass with no match anywhere is the identity. -/
theorem matcherRun_id_of_noMatch (M : Matcher) :
    ∀ u, NoMatch M.m u → M.run u = u := by
  refine listStrongInd ?_
  intro u ih hnm
  cases u with
  | nil => exact matcherRun_nil M
  | cons c t =>
      have hm : M.m (c :: t) = none := hnm (c :: t) (by simp)
      rw [matcherRun_copy M hm]
      rw [ih t (by simp) (noMatch_suffix hnm (by simp [List.suffix_cons]))]

/-- IPv4: a pass with no match at any split is the identity. -/
theorem scanIp_id_of_noMatchIp :
    ∀ (b : Bool) (u : List Char), NoMatchIp b u → scanIp b u = u := by
  intro b u
  induction u using listStrongInd generalizing b with
  | _ u ih =>
  intro hnm
  cases u with
  | nil => exact scanIp_nil b
  | cons c t =>
      have hm : matchIp b (c :: t) = none := by
        have := hnm [] (c :: t) rfl
        simpa [wordCtx_nil] using this
      rw [scanIp_copy hm]
      have hnm2 : NoMatchIp (isWordCh c) t := by
        intro pre suf hsplit
        have := hnm (c :: pre) suf (by rw [hsplit]; rfl)
        rwa [wordCtx_cons] at this
      rw [ih t (by simp) (isWordCh c) hnm2]

/-- Rescanning its own output finds no match, provided the replacement
text is inert: no nonempty suffix of the marker starts a match whatever
follows, and a head match across `marker ++ …` forces a head match across
the text the marker replaced. -/
theorem noMatch_self (M : Matcher)
    (hmk : ∀ σ X, σ <:+ M.rep → σ ≠ [] → M.m (σ ++ X) = none)
    (htr : ∀ A Z Q kq m2, M.m Q = some kq → M.m (A ++ (M.rep ++ Z)) = some m2 →
      ∃ m3, M.m (A ++ Q) = some m3) :
    ∀ u, NoMatch M.m (M.run u) := by
  refine listStrongInd ?_
  intro u ih
  cases hm : M.m u with
  | some k =>
      have hne : u ≠ [] := by
        intro hcon
        rw [hcon, M.hnil] at hm
        exact absurd hm (by simp)
      have hlt : (u.drop k).length < u.length := by
        have hk := M.hpos u k hm
        have : 1 ≤ u.length := by
          cases u with
          | nil => exact absurd rfl hne
          | cons c t => simp
        simp only [List.length_drop]
        omega
      rw [matcherRun_match M hm]
      intro v hv
      rcases suffix_append_cases hv with hsuf | ⟨σ, hσ, hne2, rfl⟩
      · exact ih (u.drop k) hlt v hsuf
      · exact hmk σ _ hσ hne2
  | none =>
      cases u with
      | nil => rw [matcherRun_nil]; exact noMatch_nil M.hnil
      | cons c t =>
          rw [matcherRun_copy M hm]
          intro v hv
          rcases List.suffix_cons_iff.mp hv with rfl | hv'
          · rcases matcher_struct M t with hid | ⟨P, Q, kq, hPQ, hQ, heq⟩
            · rw [hid]; exact hm
            · rw [heq]
              cases hcon : M.m (c :: (P ++ (M.rep ++ M.run (Q.drop kq)))) with
              | none => rfl
              | some m2 =>
                  obtain ⟨m3, hm3⟩ :=
                    htr (c :: P) (M.run (Q.drop kq)) Q kq m2 hQ hcon
                  rw [show (c :: P) ++ Q = c :: t from by rw [hPQ]; rfl] at hm3
                  rw [hm] at hm3
                  exact absurd hm3 (by simp)
          · exact ih t (by simp) v hv'

/-- A later context-free pass reintroduces no match of an earlier matcher,
under the same two conditions relating the earlier matcher to the later
pass's replacement text. -/
theorem noMatch_preserved (mi : List Char → Option Nat) (Mj : Matcher)
    (hinil : mi [] = none)
    (hmk : ∀ σ X, σ <:+ Mj.rep → σ ≠ [] → mi (σ ++ X) = none)
    (htr : ∀ A Z Q kq m2, Mj.m Q = some kq → mi (A ++ (Mj.rep ++ Z)) = some m2 →
      ∃ m3, mi (A ++ Q) = some m3) :
    ∀ u, NoMatch mi u → NoMatch mi (Mj.run u) := by
  refine listStrongInd ?_
  intro u ih hnm
  cases hm : Mj.m u with
  | some k =>
      have hne : u ≠ [] := by
        intro hcon
        rw [hcon, Mj.hnil] at hm
        exact absurd hm (by simp)
      have hlt : (u.drop k).length < u.length := by
        have hk := Mj.hpos u k hm
        have : 1 ≤ u.length := by
          cases u with
          | nil => exact absurd rfl hne
          | cons c t => simp
        simp only [List.length_drop]
        omega
      rw [matcherRun_match Mj hm]
      intro v hv
      rcases suffix_append_cases hv with hsuf | ⟨σ, hσ, hne2, rfl⟩
      · exact ih (u.drop k) hlt (noMatch_suffix hnm (List.drop_suffix k u)) v hsuf
      · exact hmk σ _ hσ hne2
  | none =>
      cases u with
      | nil => rw [matcherRun_nil]; exact noMatch_nil hinil
      | cons c t =>
          rw [matcherRun_copy Mj hm]
          intro v hv
          rcases List.suffix_cons_iff.mp hv with rfl | hv'
          · rcases matcher_struct Mj t with hid | ⟨P, Q, kq, hPQ, hQ, heq⟩
            · rw [hid]
              exact hnm (c :: t) (by simp)
            · rw [heq]
              cases hcon : mi (c :: (P ++ (Mj.rep ++ Mj.run (Q.drop kq)))) with
              | none => rfl
              | some m2 =>
                  obtain ⟨m3, hm3⟩ :=
                    htr (c :: P) (Mj.run (Q.drop kq)) Q kq m2 hQ hcon
                  rw [show (c :: P) ++ Q = c :: t from by rw [hPQ]; rfl] at hm3
                  rw [hnm (c :: t) (by simp)] at hm3
                  exact absurd hm3 (by simp)
          · exact ih t (by simp) (noMatch_suffix hnm (by simp [List.suffix_cons])) v hv'

/-- The IPv4 pass reintroduces no match of an earlier context-free
matcher. -/
theorem noMatch_preserved_ip (mi : List Char → Option Nat)
    (hinil : mi [] = none)
    (hmk : ∀ σ X, σ <:+ markerIp → σ ≠ [] → mi (σ ++ X) = none)
    (htr : ∀ A Z Q m2, mi (A ++ (markerIp ++ Z)) = some m2 →
      ∃ m3, mi (A ++ Q) = some m3) :
    ∀ (b : Bool) (u : List Char), NoMatch mi u → NoMatch mi (scanIp b u) := by
  intro b u
  induction u using listStrongInd generalizing b with
  | _ u ih =>
  intro hnm
  cases hm : matchIp b u with
  | some k =>
      have hne : u ≠ [] := by
        intro hcon
        rw [hcon, matchIp_nil b] at hm
        exact absurd hm (by simp)
      have hlt : (u.drop k).length < u.length := by
        have hk := matchIp_pos b u k hm
        have : 1 ≤ u.length := by
          cases u with
          | nil => exact absurd rfl hne
          | cons c t => simp
        simp only [List.length_drop]
        omega
      rw [scanIp_match hm]
      intro v hv
      rcases suffix_append_cases hv with hsuf | ⟨σ, hσ, hne2, rfl⟩
      · exact ih (u.drop k) hlt true (noMatch_suffix hnm (List.drop_suffix k u)) v hsuf
      · exact hmk σ _ hσ hne2
  | none =>
      cases u with
      | nil => rw [scanIp_nil]; exact noMatch_nil hinil
      | cons c t =>
          rw [scanIp_copy hm]
          intro v hv
          rcases List.suffix_cons_iff.mp hv with rfl | hv'
          · rcases scanIp_struct (isWordCh c) t with hid | ⟨P, Q, kq, hPQ, hQ, heq⟩
            · rw [hid]
              exact hnm (c :: t) (by simp)
            · rw [heq]
              cases hcon : mi (c :: (P ++ (markerIp ++ scanIp true (Q.drop kq)))) with
              | none => rfl
              | some m2 =>
                  obtain ⟨m3, hm3⟩ :=
                    htr (c :: P) (scanIp true (Q.drop kq)) Q m2 hcon
                  rw [show (c :: P) ++ Q = c :: t from by rw [hPQ]; rfl] at hm3
                  rw [hnm (c :: t) (by simp)] at hm3
                  exact absurd hm3 (by simp)
          · exact ih t (by simp) (isWordCh c)
              (noMatch_suffix hnm (by simp [List.suffix_cons])) v hv'

theorem word_of_digit {c : Char} (h : isDigitCh c = true) : isWordCh c = true := by
  simp [isWordCh, h]

/-- A run that stops strictly inside the left part is unchanged by any
append. -/
theorem runL_append_of_lt (p : Char → Bool) (A B : List Char)
    (h : runL p A < A.length) : runL p (A ++ B) = runL p A := by
  induction A with
  | nil => simp [runL_nil] at h
  | cons a t ih =>
      rw [List.cons_append, runL_cons, runL_cons]
      by_cases ha : p a = true
      · rw [runL_cons] at h
        simp only [ha, if_true] at h ⊢
        rw [ih (by simpa using h)]
      · simp [ha]

/-- Transfer of an IPv4 group parse out of a bracket-guarded context: a
parse that succeeds against `A ++ '[' :: Z` is confined to `A` (no group
character or dot is `[`), its trailing boundary cannot sit at the bracket
when `A` ends in a non-word character, so the same parse succeeds against
`A ++ Q` for any `Q`. -/
theorem ipGroups_transfer : ∀ (n : Nat) (A Z Q : List Char) (m2 : Nat),
    (∀ cc, A.getLast? = some cc → isWordCh cc = false) →
    ipGroups n (A ++ ('[' :: Z)) = some m2 → ∃ m3, ipGroups n (A ++ Q) = some m3 := by
  intro n
  induction n with
  | zero =>
      intro A Z Q m2 hlast h
      simp only [ipGroups] at h ⊢
      have hbr : isDigitCh '[' = false := by decide
      have hr : runL isDigitCh (A ++ ('[' :: Z)) = runL isDigitCh A :=
        runL_append_stop isDigitCh A Z '[' hbr
      rw [hr] at h
      split at h
      · rename_i hrange
        have hrA : runL isDigitCh A ≤ A.length := runL_le_length isDigitCh A
        rcases Nat.lt_or_ge (runL isDigitCh A) A.length with hlt | hge
        · -- the run and its terminator sit inside A
          have hrQ : runL isDigitCh (A ++ Q) = runL isDigitCh A :=
            runL_append_of_lt isDigitCh A Q hlt
          rw [hrQ]
          rw [if_pos hrange]
          have hgA : (A ++ ('[' :: Z))[runL isDigitCh A]? = A[runL isDigitCh A]? :=
            List.getElem?_append_left hlt
          have hgQ : (A ++ Q)[runL isDigitCh A]? = A[runL isDigitCh A]? :=
            List.getElem?_append_left hlt
          rw [hgA] at h
          rw [hgQ]
          exact ⟨m2, h⟩
        · -- run = |A|: A is all digits, so its last character is a digit,
          -- contradicting the non-word ending of A
          have heq : runL isDigitCh A = A.length := Nat.le_antisymm hrA hge
          have hall : ∀ c ∈ A, isDigitCh c = true :=
            (runL_eq_length_iff isDigitCh A).mp heq
          have hAne : A ≠ [] := by
            intro hcon
            rw [hcon] at hrange
            simp [runL_nil] at hrange
          obtain ⟨cl, hcl⟩ : ∃ cl, A.getLast? = some cl := by
            cases hA : A.getLast? with
            | some cl => exact ⟨cl, rfl⟩
            | none => exact absurd (List.getLast?_eq_none_iff.mp hA) hAne
          have hcld : isDigitCh cl = true := hall cl (List.mem_of_mem_getLast? hcl)
          have := hlast cl hcl
          rw [word_of_digit hcld] at this
          exact absurd this (by simp)
      · exact absurd h (by simp)
  | succ n ih =>
      intro A Z Q m2 hlast h
      simp only [ipGroups] at h ⊢
      have hbr : isDigitCh '[' = false := by decide
      have hr : runL isDigitCh (A ++ ('[' :: Z)) = runL isDigitCh A :=
        runL_append_stop isDigitCh A Z '[' hbr
      rw [hr] at h
      split at h
      · rename_i hrange
        have hrA : runL isDigitCh A ≤ A.length := runL_le_length isDigitCh A
        rcases Nat.lt_or_ge (runL isDigitCh A) A.length with hlt | hge
        · have hrQ : runL isDigitCh (A ++ Q) = runL isDigitCh A :=
            runL_append_of_lt isDigitCh A Q hlt
          rw [hrQ]
          rw [if_pos hrange]
          have hgA : (A ++ ('[' :: Z))[runL isDigitCh A]? = A[runL isDigitCh A]? :=
            List.getElem?_append_left hlt
          have hgQ : (A ++ Q)[runL isDigitCh A]? = A[runL isDigitCh A]? :=
            List.getElem?_append_left hlt
          rw [hgA] at h
          rw [hgQ]
          split at h
          · rename_i hdot
            rw [if_pos hdot]
            -- recurse on the remainder after the group and its dot
            have hle : runL isDigitCh A + 1 ≤ A.length := by omega
            have hdropA : (A ++ ('[' :: Z)).drop (runL isDigitCh A + 1) =
                A.drop (runL isDigitCh A + 1) ++ ('[' :: Z) :=
              List.drop_append_of_le_length hle
            have hdropQ : (A ++ Q).drop (runL isDigitCh A + 1) =
                A.drop (runL isDigitCh A + 1) ++ Q :=
              List.drop_append_of_le_length hle
            rw [hdropA] at h
            rw [hdropQ]
            cases hrec : ipGroups n (A.drop (runL isDigitCh A + 1) ++ ('[' :: Z)) with
            | none => rw [hrec] at h; exact absurd h (by simp)
            | some mr =>
                rw [hrec] at h
                have hlast2 : ∀ cc,
                    (A.drop (runL isDigitCh A + 1)).getLast? = some cc →
                    isWordCh cc = false := by
                  intro cc hcc
                  cases hAd : A.drop (runL isDigitCh A + 1) with
                  | nil => rw [hAd] at hcc; exact absurd hcc (by simp)
                  | cons x xs =>
                      have hsuf : A.drop (runL isDigitCh A + 1) <:+ A :=
                        List.drop_suffix _ A
                      have : (A.drop (runL isDigitCh A + 1)).getLast? = A.getLast? :=
                        suffix_getLast? hsuf (by rw [hAd]; simp)
                      rw [this] at hcc
                      exact hlast cc hcc
                obtain ⟨m3, hm3⟩ := ih (A.drop (runL isDigitCh A + 1)) Z Q mr hlast2 hrec
                rw [hm3]
                exact ⟨runL isDigitCh A + 1 + m3, rfl⟩
          · exact absurd h (by simp)
        · -- run = |A|: the dot check hits the bracket and fails
          have heq : runL isDigitCh A = A.length := Nat.le_antisymm hrA hge
          have hg : (A ++ ('[' :: Z))[runL isDigitCh A]? = some '[' := by
            rw [List.getElem?_append_right (by omega)]
            simp [heq]
          rw [hg] at h
          simp at h
      · exact absurd h (by simp)

/-- The IPv4 matcher version of `ipGroups_transfer`. -/
theorem matchIp_transfer (b : Bool) (A Z Q : List Char) (m2 : Nat)
    (hlast : ∀ cc, A.getLast? = some cc → isWordCh cc = false)
    (h : matchIp b (A ++ ('[' :: Z)) = some m2) :
    ∃ m3, matchIp b (A ++ Q) = some m3 := by
  have hb : b = false := matchIp_b_false h
  subst hb
  exact ipGroups_transfer 3 A Z Q m2 hlast h

/-- The IPv4 matcher version of `ipGroups_transfer`, phrased against the
replacement marker. -/
theorem matchIp_transfer_marker (b : Bool) (A Z Q : List Char) (m2 : Nat)
    (hlast : ∀ cc, A.getLast? = some cc → isWordCh cc = false)
    (h : matchIp b (A ++ (markerIp ++ Z)) = some m2) :
    ∃ m3, matchIp b (A ++ Q) = some m3 := by
  have hb : b = false := matchIp_b_false h
  subst hb
  exact ipGroups_transfer 3 A (['R', 'E', 'D', 'A', 'C', 'T', 'E', 'D', '_', 'I', 'P', ']'] ++ Z)
    Q m2 hlast h

/-- Right after an IPv4 replacement, rescanning from a non-word context
finds no match at the head of the remainder: the trailing boundary left a
non-word (hence non-digit) first character, which the scan of the
remainder copies. -/
theorem matchIp_after_marker {b0 : Bool} {u : List Char} {k : Nat}
    (hm : matchIp b0 u = some k) :
    matchIp false (scanIp true (u.drop k)) = none := by
  cases hdrop : u.drop k with
  | nil => rw [scanIp_nil]; exact matchIp_nil false
  | cons c0 t0 =>
      have hw0 : isWordCh c0 = false := matchIp_trailing hm c0 t0 hdrop
      have hd0 : isDigitCh c0 = false := by
        cases hdc : isDigitCh c0 with
        | false => rfl
        | true => rw [word_of_digit hdc] at hw0; exact absurd hw0 (by simp)
      rw [scanIp_copy (matchIp_true (c0 :: t0))]
      exact matchIp_none_head false c0 _ hd0

/-- Rescanning the IPv4 pass's own output, from the same starting
context, finds no match at any split. -/
theorem noMatchIp_self : ∀ (b : Bool) (u : List Char), NoMatchIp b (scanIp b u) := by
  intro b u
  induction u using listStrongInd generalizing b with
  | _ u ih =>
  cases hm : matchIp b u with
  | some k =>
      have hne : u ≠ [] := by
        intro hcon
        rw [hcon, matchIp_nil b] at hm
        exact absurd hm (by simp)
      have hlt : (u.drop k).length < u.length := by
        have hk := matchIp_pos b u k hm
        have : 1 ≤ u.length := by
          cases u with
          | nil => exact absurd rfl hne
          | cons c t => simp
        simp only [List.length_drop]
        omega
      rw [scanIp_match hm]
      intro pre suf hsplit
      rcases List.append_eq_append_iff.mp hsplit with ⟨ρ, hpre, hW⟩ | ⟨σ, hmark, hsuf⟩
      · subst hpre
        rw [wordCtx_append]
        rw [show wordCtx b markerIp = false from rfl]
        cases ρ with
        | nil =>
            simp only [List.nil_append] at hW
            rw [← hW, wordCtx_nil]
            exact matchIp_after_marker hm
        | cons r0 ρ' =>
            have hIH := ih (u.drop k) hlt true (r0 :: ρ') suf hW
            rw [wordCtx_cons] at hIH
            rw [wordCtx_cons]
            exact hIH
      · subst hsuf
        cases σ with
        | nil =>
            have hpre : pre = markerIp := by
              simpa using hmark.symm
            subst hpre
            simp only [List.nil_append]
            rw [show wordCtx b markerIp = false from rfl]
            exact matchIp_after_marker hm
        | cons s0 σ' =>
            have hs0 : s0 ∈ markerIp := by
              rw [hmark]
              exact List.mem_append_right pre (by simp)
            have hd : isDigitCh s0 = false := by
              have hall : ∀ c ∈ markerIp, isDigitCh c = false := by decide
              exact hall s0 hs0
            exact matchIp_none_head _ s0 _ hd
  | none =>
      cases u with
      | nil =>
          rw [scanIp_nil]
          intro pre suf hsplit
          obtain ⟨rfl, rfl⟩ : pre = [] ∧ suf = [] := by
            have := hsplit.symm
            simpa using this
          rw [wordCtx_nil]
          exact matchIp_nil b
      | cons c t =>
          rw [scanIp_copy hm]
          intro pre suf hsplit
          cases pre with
          | nil =>
              simp only [List.nil_append] at hsplit
              rw [wordCtx_nil, ← hsplit]
              rcases scanIp_struct (isWordCh c) t with hid | ⟨P, Q, kq, hPQ, hQ, heq⟩
              · rw [hid]
                exact hm
              · rw [heq]
                cases hcon : matchIp b
                    (c :: (P ++ (markerIp ++ scanIp true (Q.drop kq)))) with
                | none => rfl
                | some m2 =>
                    have hctx : wordCtx (isWordCh c) P = false := matchIp_b_false hQ
                    have hlast : ∀ cc, (c :: P).getLast? = some cc →
                        isWordCh cc = false := by
                      intro cc hcc
                      cases hPL : P.getLast? with
                      | some x =>
                          have hcl : (c :: P).getLast? = some x := by
                            rw [List.getLast?_cons, hPL]
                            simp
                          rw [hcl] at hcc
                          simp only [Option.some.injEq] at hcc
                          subst hcc
                          simp only [wordCtx, hPL] at hctx
                          exact hctx
                      | none =>
                          have hP : P = [] := List.getLast?_eq_none_iff.mp hPL
                          subst hP
                          simp only [List.getLast?_singleton, Option.some.injEq] at hcc
                          subst hcc
                          rw [wordCtx_nil] at hctx
                          exact hctx
                    obtain ⟨m3, hm3⟩ := matchIp_transfer_marker b (c :: P)
                      (scanIp true (Q.drop kq)) Q m2 hlast hcon
                    rw [show (c :: P) ++ Q = c :: t from by rw [hPQ]; rfl] at hm3
                    rw [hm] at hm3
                    exact absurd hm3 (by simp)
          | cons c' pre' =>
              simp only [List.cons_append, List.cons.injEq] at hsplit
              obtain ⟨rfl, hX⟩ := hsplit
              rw [wordCtx_cons]
              exact ih t (by simp) (isWordCh c) pre' suf hX

/-- Transfer of a hex-run match out of a bracket-guarded context. -/
theorem matchHex_transfer (A Z Q : List Char) (m2 : Nat)
    (h : matchHex (A ++ ('[' :: Z)) = some m2) : ∃ m3, matchHex (A ++ Q) = some m3 := by
  simp only [matchHex] at h ⊢
  rw [runL_append_stop isHexI A Z '[' (by decide)] at h
  split at h
  · rename_i hge
    have : 32 ≤ runL isHexI (A ++ Q) :=
      le_trans hge (runL_prefix_le isHexI A Q)
    rw [if_pos this]
    exact ⟨runL isHexI (A ++ Q), rfl⟩
  · exact absurd h (by simp)

/-- A positive Bearer-literal test exposes the six matched characters. -/
theorem bearerHead_true_elim {u : List Char} (h : bearerHead u = true) :
    ∃ c0 c1 c2 c3 c4 c5 tail, u = c0 :: c1 :: c2 :: c3 :: c4 :: c5 :: tail ∧
      ciIs c0 'b' 'B' = true ∧ ciIs c1 'e' 'E' = true ∧ ciIs c2 'a' 'A' = true ∧
      ciIs c3 'r' 'R' = true ∧ ciIs c4 'e' 'E' = true ∧ ciIs c5 'r' 'R' = true := by
  match u with
  | c0 :: c1 :: c2 :: c3 :: c4 :: c5 :: tail =>
      simp only [bearerHead, Bool.and_eq_true] at h
      exact ⟨c0, c1, c2, c3, c4, c5, tail, rfl, h.1.1.1.1.1, h.1.1.1.1.2,
        h.1.1.1.2, h.1.1.2, h.1.2, h.2⟩
  | [] => simp [bearerHead] at h
  | [c0] => simp [bearerHead] at h
  | [c0, c1] => simp [bearerHead] at h
  | [c0, c1, c2] => simp [bearerHead] at h
  | [c0, c1, c2, c3] => simp [bearerHead] at h
  | [c0, c1, c2, c3, c4] => simp [bearerHead] at h

/-- The case analysis behind the Bearer literal: a match against
`A ++ '[' :: Z` needs the literal, the whitespace run, and the first
token character all strictly inside `A`, so it transfers to `A ++ Q`
for any `Q`. -/
theorem matchBearer_transfer (A Z Q : List Char) (m2 : Nat)
    (h : matchBearer (A ++ ('[' :: Z)) = some m2) :
    ∃ m3, matchBearer (A ++ Q) = some m3 := by
  match A with
  | [] =>
      simp only [matchBearer, List.nil_append] at h
      split at h
      · rename_i hbt
        obtain ⟨d0, d1, d2, d3, d4, d5, tail, heq, h0, h1, h2, h3, h4, h5⟩ :=
          bearerHead_true_elim hbt
        simp only [List.cons.injEq] at heq
        rw [← heq.1] at h0
        exact absurd h0 (by decide)
      · exact absurd h (by simp)
  | [c0] =>
      simp only [matchBearer, List.cons_append, List.nil_append] at h
      split at h
      · rename_i hbt
        obtain ⟨d0, d1, d2, d3, d4, d5, tail, heq, h0, h1, h2, h3, h4, h5⟩ :=
          bearerHead_true_elim hbt
        simp only [List.cons.injEq] at heq
        rw [← heq.2.1] at h1
        exact absurd h1 (by decide)
      · exact absurd h (by simp)
  | [c0, c1] =>
      simp only [matchBearer, List.cons_append, List.nil_append] at h
      split at h
      · rename_i hbt
        obtain ⟨d0, d1, d2, d3, d4, d5, tail, heq, h0, h1, h2, h3, h4, h5⟩ :=
          bearerHead_true_elim hbt
        simp only [List.cons.injEq] at heq
        rw [← heq.2.2.1] at h2
        exact absurd h2 (by decide)
      · exact absurd h (by simp)
  | [c0, c1, c2] =>
      simp only [matchBearer, List.cons_append, List.nil_append] at h
      split at h
      · rename_i hbt
        obtain ⟨d0, d1, d2, d3, d4, d5, tail, heq, h0, h1, h2, h3, h4, h5⟩ :=
          bearerHead_true_elim hbt
        simp only [List.cons.injEq] at heq
        rw [← heq.2.2.2.1] at h3
        exact absurd h3 (by decide)
      · exact absurd h (by simp)
  | [c0, c1, c2, c3] =>
      simp only [matchBearer, List.cons_append, List.nil_append] at h
      split at h
      · rename_i hbt
        obtain ⟨d0, d1, d2, d3, d4, d5, tail, heq, h0, h1, h2, h3, h4, h5⟩ :=
          bearerHead_true_elim hbt
        simp only [List.cons.injEq] at heq
        rw [← heq.2.2.2.2.1] at h4
        exact absurd h4 (by decide)
      · exact absurd h (by simp)
  | [c0, c1, c2, c3, c4] =>
      simp only [matchBearer, List.cons_append, List.nil_append] at h
      split at h
      · rename_i hbt
        obtain ⟨d0, d1, d2, d3, d4, d5, tail, heq, h0, h1, h2, h3, h4, h5⟩ :=
          bearerHead_true_elim hbt
        simp only [List.cons.injEq] at heq
        rw [← heq.2.2.2.2.2.1] at h5
        exact absurd h5 (by decide)
      · exact absurd h (by simp)
  | c0 :: c1 :: c2 :: c3 :: c4 :: c5 :: A6 =>
      simp only [matchBearer, List.cons_append] at h ⊢
      have hbh : bearerHead
          (c0 :: c1 :: c2 :: c3 :: c4 :: c5 :: (A6 ++ '[' :: Z)) =
          bearerHead (c0 :: c1 :: c2 :: c3 :: c4 :: c5 :: (A6 ++ Q)) := rfl
      rw [← hbh]
      split at h
      · rename_i hbt
        rw [if_pos hbt]
        simp only [List.drop_succ_cons, List.drop_zero] at h ⊢
        rw [runL_append_stop isWsJS A6 Z '[' (by decide)] at h
        split at h
        · exact absurd h (by simp)
        · rename_i hw0
          rcases Nat.lt_or_ge (runL isWsJS A6) A6.length with hlt | hge
          · rw [runL_append_of_lt isWsJS A6 Q hlt]
            rw [if_neg hw0]
            rw [show (6 : Nat) + runL isWsJS A6 = runL isWsJS A6 + 6 from by omega] at h ⊢
            simp only [List.drop_succ_cons] at h ⊢
            have hdA : (A6 ++ ('[' :: Z)).drop (runL isWsJS A6) =
                A6.drop (runL isWsJS A6) ++ ('[' :: Z) :=
              List.drop_append_of_le_length (by omega)
            have hdQ : (A6 ++ Q).drop (runL isWsJS A6) =
                A6.drop (runL isWsJS A6) ++ Q :=
              List.drop_append_of_le_length (by omega)
            rw [hdA, runL_append_stop isTokCh _ Z '[' (by decide)] at h
            rw [hdQ]
            split at h
            · exact absurd h (by simp)
            · rename_i hv0
              have : ¬ runL isTokCh (A6.drop (runL isWsJS A6) ++ Q) = 0 := by
                have hle := runL_prefix_le isTokCh (A6.drop (runL isWsJS A6)) Q
                omega
              rw [if_neg this]
              exact ⟨_, rfl⟩
          · have heqA : runL isWsJS A6 = A6.length :=
              Nat.le_antisymm (runL_le_length isWsJS A6) hge
            rw [show (6 : Nat) + runL isWsJS A6 = runL isWsJS A6 + 6 from by omega] at h
            simp only [List.drop_succ_cons] at h
            rw [heqA] at h
            rw [List.drop_append_of_le_length le_rfl, List.drop_length] at h
            simp only [List.nil_append] at h
            rw [show runL isTokCh ('[' :: Z) = 0 from by
              rw [runL_cons, show isTokCh '[' = false from by decide]; simp] at h
            simp at h
      · exact absurd h (by simp)

/-- A head character failing the case-insensitive `b` test kills the
Bearer literal. -/
theorem bearerHead_eq_false_of_head {c : Char} (hc : ciIs c 'b' 'B' = false) :
    ∀ rest, bearerHead (c :: rest) = false := by
  intro rest
  match rest with
  | c1 :: c2 :: c3 :: c4 :: c5 :: tail => simp [bearerHead, hc]
  | [] => rfl
  | [c1] => rfl
  | [c1, c2] => rfl
  | [c1, c2, c3] => rfl
  | [c1, c2, c3, c4] => rfl

/-- No Bearer match starts at a character other than `b` or `B`. -/
theorem matchBearer_none_head {c : Char} (hc : ciIs c 'b' 'B' = false) (rest : List Char) :
    matchBearer (c :: rest) = none := by
  simp [matchBearer, bearerHead_eq_false_of_head hc rest]

/-- The Bearer replacement text itself starts no Bearer match: the literal
holds but the whitespace run ends at the bracket, which is not a token
character. -/
theorem matchBearer_marker (X : List Char) : matchBearer (markerBearer ++ X) = none := by
  have hb : bearerHead (markerBearer ++ X) = true := by
    simp only [markerBearer, List.cons_append, List.nil_append, bearerHead]
    decide
  have hd6 : (markerBearer ++ X).drop 6 =
      ' ' :: ('[' :: (['R', 'E', 'D', 'A', 'C', 'T', 'E', 'D', ']'] ++ X)) := by
    simp [markerBearer]
  have hws : runL isWsJS ((markerBearer ++ X).drop 6) = 1 := by
    rw [hd6, runL_cons, runL_cons]
    simp [show isWsJS ' ' = true from by decide, show isWsJS '[' = false from by decide]
  have hd7 : (markerBearer ++ X).drop 7 =
      '[' :: (['R', 'E', 'D', 'A', 'C', 'T', 'E', 'D', ']'] ++ X) := by
    simp [markerBearer]
  have htk : runL isTokCh ((markerBearer ++ X).drop 7) = 0 := by
    rw [hd7, runL_cons]
    simp [show isTokCh '[' = false from by decide]
  simp [matchBearer, hb, hws, htk]

/-- A marker all of whose nonempty suffixes start with a non-`b` character
is inert for the Bearer matcher. -/
theorem matchBearer_suffix_of_key (mk : List Char)
    (key : ∀ τ ∈ mk.tails, τ = [] ∨ ciIs τ.headI 'b' 'B' = false) :
    ∀ σ X, σ <:+ mk → σ ≠ [] → matchBearer (σ ++ X) = none := by
  intro σ X hσ hne
  rcases key σ ((List.mem_tails σ mk).mpr hσ) with rfl | hh
  · exact absurd rfl hne
  · cases σ with
    | nil => exact absurd rfl hne
    | cons c σ2 =>
        simp only [List.headI] at hh
        exact matchBearer_none_head hh (σ2 ++ X)

/-- The Bearer replacement text is inert for the Bearer matcher. -/
theorem matchBearer_suffix_markerBearer :
    ∀ σ X, σ <:+ markerBearer → σ ≠ [] → matchBearer (σ ++ X) = none := by
  intro σ X hσ hne
  have key : ∀ τ ∈ markerBearer.tails,
      τ = [] ∨ τ = markerBearer ∨ ciIs τ.headI 'b' 'B' = false := by decide
  rcases key σ ((List.mem_tails σ markerBearer).mpr hσ) with rfl | hfull | hh
  · exact absurd rfl hne
  · subst hfull
    exact matchBearer_marker X
  · cases σ with
    | nil => exact absurd rfl hne
    | cons c σ2 =>
        simp only [List.headI] at hh
        exact matchBearer_none_head hh (σ2 ++ X)

/-- A short text containing a bracket starts no long-hex match whatever
follows it. -/
theorem matchHex_suffix_none (σ X : List Char) (hbr : ']' ∈ σ) (hlen : σ.length ≤ 31) :
    matchHex (σ ++ X) = none := by
  have hlt : runL isHexI σ < σ.length := runL_lt_of_mem isHexI hbr (by decide)
  simp only [matchHex]
  rw [runL_append_of_lt isHexI σ X hlt]
  rw [if_neg (show ¬ 32 ≤ runL isHexI σ from by omega)]

/-- A marker ending in the closing bracket and of length at most 31 is
inert for the hex matcher. -/
theorem matchHex_marker_suffix (mk : List Char) (hlast : mk.getLast? = some ']')
    (hlen : mk.length ≤ 31) :
    ∀ σ X, σ <:+ mk → σ ≠ [] → matchHex (σ ++ X) = none := by
  intro σ X hσ hne
  have hl : σ.getLast? = some ']' := (suffix_getLast? hσ hne).trans hlast
  exact matchHex_suffix_none σ X (List.mem_of_getLast?_eq_some hl)
    (le_trans hσ.length_le hlen)

/-- A text containing a bracket but no `@` starts no email match whatever
follows it: the local run ends inside it, at a character that is not `@`. -/
theorem matchEmail_suffix_none (σ X : List Char) (hbr : ']' ∈ σ) (hat : '@' ∉ σ) :
    matchEmail (σ ++ X) = none := by
  have hlt : runL isLocalCh σ < σ.length := runL_lt_of_mem isLocalCh hbr (by decide)
  have hrw : runL isLocalCh (σ ++ X) = runL isLocalCh σ := runL_append_of_lt isLocalCh σ X hlt
  simp only [matchEmail, hrw]
  by_cases hl0 : runL isLocalCh σ = 0
  · rw [if_pos hl0]
  · rw [if_neg hl0]
    obtain ⟨c, hc, hcp⟩ := runL_get_stop isLocalCh σ hlt
    have hcne : c ≠ '@' := by
      intro hcon
      rw [hcon] at hc
      exact hat (List.getElem?_mem hc)
    rw [if_neg (show ¬ ((σ ++ X)[runL isLocalCh σ]? = some '@') from by
      rw [List.getElem?_append_left hlt, hc]
      intro hcon
      exact hcne (Option.some.inj hcon))]

/-- A marker ending in the closing bracket and containing no `@` is inert
for the email matcher. -/
theorem matchEmail_marker_suffix (mk : List Char) (hlast : mk.getLast? = some ']')
    (hat : '@' ∉ mk) :
    ∀ σ X, σ <:+ mk → σ ≠ [] → matchEmail (σ ++ X) = none := by
  intro σ X hσ hne
  have hl : σ.getLast? = some ']' := (suffix_getLast? hσ hne).trans hlast
  exact matchEmail_suffix_none σ X (List.mem_of_getLast?_eq_some hl)
    (fun hmem => hat (hσ.subset hmem))

/-- Taking while over a prefix of an appended list extends the take over
the left part. -/
theorem takeWhile_prefix_append (p : Char → Bool) (A Q : List Char) :
    A.takeWhile p <+: (A ++ Q).takeWhile p := by
  induction A with
  | nil => simp
  | cons a t ih =>
      simp only [List.cons_append, List.takeWhile_cons]
      cases hp : p a
      · simp
      · simpa using ih

/-- A Bearer match exposes its first character: a case-insensitive `b`. -/
theorem matchBearer_head {Q : List Char} {kq : Nat} (hQ : matchBearer Q = some kq) :
    ∃ q Q2, Q = q :: Q2 ∧ ciIs q 'b' 'B' = true := by
  simp only [matchBearer] at hQ
  split at hQ
  · rename_i hbt
    obtain ⟨d0, d1, d2, d3, d4, d5, tail, heq, h0, h1, h2, h3, h4, h5⟩ :=
      bearerHead_true_elim hbt
    exact ⟨d0, d1 :: d2 :: d3 :: d4 :: d5 :: tail, heq, h0⟩
  · exact absurd hQ (by simp)

/-- A Bearer match across its own replacement text transfers to the text
the marker replaced, which itself starts a Bearer match. -/
theorem matchBearer_transfer_bearer (A Z Q : List Char) (kq m2 : Nat)
    (hQ : matchBearer Q = some kq)
    (h : matchBearer (A ++ (markerBearer ++ Z)) = some m2) :
    ∃ m3, matchBearer (A ++ Q) = some m3 := by
  obtain ⟨q, Q2, rfl, hq⟩ := matchBearer_head hQ
  have hqcase : q = 'b' ∨ q = 'B' := by simpa [ciIs] using hq
  have hqtok : isTokCh q = true := by
    rcases hqcase with rfl | rfl <;> decide
  have hqws : isWsJS q = false := by
    rcases hqcase with rfl | rfl <;> decide
  have hmz : markerBearer ++ Z =
      'B' :: 'e' :: 'a' :: 'r' :: 'e' :: 'r' :: ' ' :: '[' :: 'R' :: 'E' :: 'D' :: 'A' ::
        'C' :: 'T' :: 'E' :: 'D' :: ']' :: Z := by
    simp [markerBearer]
  match A with
  | [] =>
      rw [List.nil_append, matchBearer_marker Z] at h
      exact absurd h (by simp)
  | [c0] =>
      simp only [matchBearer, List.cons_append, List.nil_append] at h
      split at h
      · rename_i hbt
        obtain ⟨d0, d1, d2, d3, d4, d5, tail, heq, h0, h1, h2, h3, h4, h5⟩ :=
          bearerHead_true_elim hbt
        rw [hmz] at heq
        simp only [List.cons.injEq] at heq
        rw [← heq.2.1] at h1
        exact absurd h1 (by decide)
      · exact absurd h (by simp)
  | [c0, c1] =>
      simp only [matchBearer, List.cons_append, List.nil_append] at h
      split at h
      · rename_i hbt
        obtain ⟨d0, d1, d2, d3, d4, d5, tail, heq, h0, h1, h2, h3, h4, h5⟩ :=
          bearerHead_true_elim hbt
        rw [hmz] at heq
        simp only [List.cons.injEq] at heq
        rw [← heq.2.2.1] at h2
        exact absurd h2 (by decide)
      · exact absurd h (by simp)
  | [c0, c1, c2] =>
      simp only [matchBearer, List.cons_append, List.nil_append] at h
      split at h
      · rename_i hbt
        obtain ⟨d0, d1, d2, d3, d4, d5, tail, heq, h0, h1, h2, h3, h4, h5⟩ :=
          bearerHead_true_elim hbt
        rw [hmz] at heq
        simp only [List.cons.injEq] at heq
        rw [← heq.2.2.2.1] at h3
        exact absurd h3 (by decide)
      · exact absurd h (by simp)
  | [c0, c1, c2, c3] =>
      simp only [matchBearer, List.cons_append, List.nil_append] at h
      split at h
      · rename_i hbt
        obtain ⟨d0, d1, d2, d3, d4, d5, tail, heq, h0, h1, h2, h3, h4, h5⟩ :=
          bearerHead_true_elim hbt
        rw [hmz] at heq
        simp only [List.cons.injEq] at heq
        rw [← heq.2.2.2.2.1] at h4
        exact absurd h4 (by decide)
      · exact absurd h (by simp)
  | [c0, c1, c2, c3, c4] =>
      simp only [matchBearer, List.cons_append, List.nil_append] at h
      split at h
      · rename_i hbt
        obtain ⟨d0, d1, d2, d3, d4, d5, tail, heq, h0, h1, h2, h3, h4, h5⟩ :=
          bearerHead_true_elim hbt
        rw [hmz] at heq
        simp only [List.cons.injEq] at heq
        rw [← heq.2.2.2.2.2.1] at h5
        exact absurd h5 (by decide)
      · exact absurd h (by simp)
  | c0 :: c1 :: c2 :: c3 :: c4 :: c5 :: A6 =>
      simp only [matchBearer, List.cons_append] at h ⊢
      have hbh : bearerHead
          (c0 :: c1 :: c2 :: c3 :: c4 :: c5 :: (A6 ++ (markerBearer ++ Z))) =
          bearerHead (c0 :: c1 :: c2 :: c3 :: c4 :: c5 :: (A6 ++ q :: Q2)) := rfl
      rw [← hbh]
      split at h
      · rename_i hbt
        rw [if_pos hbt]
        simp only [List.drop_succ_cons, List.drop_zero] at h ⊢
        rw [hmz] at h
        rw [runL_append_stop isWsJS A6 _ 'B' (by decide)] at h
        rw [runL_append_stop isWsJS A6 Q2 q hqws]
        split at h
        · exact absurd h (by simp)
        · rename_i hw0
          rw [if_neg hw0]
          rw [show (6 : Nat) + runL isWsJS A6 = runL isWsJS A6 + 6 from by omega] at h ⊢
          simp only [List.drop_succ_cons] at h ⊢
          rcases Nat.lt_or_ge (runL isWsJS A6) A6.length with hlt | hge
          · have hdA : (A6 ++ ('B' :: 'e' :: 'a' :: 'r' :: 'e' :: 'r' :: ' ' :: '[' :: 'R' ::
                'E' :: 'D' :: 'A' :: 'C' :: 'T' :: 'E' :: 'D' :: ']' :: Z)).drop
                  (runL isWsJS A6) =
                A6.drop (runL isWsJS A6) ++ ('B' :: 'e' :: 'a' :: 'r' :: 'e' :: 'r' :: ' ' ::
                  '[' :: 'R' :: 'E' :: 'D' :: 'A' :: 'C' :: 'T' :: 'E' :: 'D' :: ']' :: Z) :=
              List.drop_append_of_le_length (by omega)
            have hdQ : (A6 ++ q :: Q2).drop (runL isWsJS A6) =
                A6.drop (runL isWsJS A6) ++ (q :: Q2) :=
              List.drop_append_of_le_length (by omega)
            rw [hdA] at h
            rw [hdQ]
            rcases hA6d : A6.drop (runL isWsJS A6) with _ | ⟨c, T⟩
            · have hlen := congrArg List.length hA6d
              simp at hlen
              omega
            · rw [hA6d] at h
              cases htc : isTokCh c with
              | false =>
                  simp only [List.cons_append, runL_cons, htc] at h
                  simp at h
              | true =>
                  simp only [List.cons_append, runL_cons, htc]
                  simp
          · have heqA : runL isWsJS A6 = A6.length :=
              Nat.le_antisymm (runL_le_length isWsJS A6) hge
            rw [heqA, List.drop_append_of_le_length le_rfl, List.drop_length,
              List.nil_append]
            rw [show runL isTokCh (q :: Q2) = runL isTokCh Q2 + 1 from by
              rw [runL_cons, hqtok]; simp]
            rw [if_neg (by omega)]
            exact ⟨_, rfl⟩
      · exact absurd h (by simp)

/-- Transfer of an email match out of a bracket-guarded context: the local
run, the `@`, and the witnessing dot-plus-letters all sit strictly inside
the prefix `A`, and the domain run can only grow when the bracket is
replaced by other text. -/
theorem matchEmail_transfer (A Z Q : List Char) (m2 : Nat)
    (h : matchEmail (A ++ ('[' :: Z)) = some m2) :
    ∃ m3, matchEmail (A ++ Q) = some m3 := by
  simp only [matchEmail] at h
  rw [runL_append_stop isLocalCh A Z '[' (by decide)] at h
  split at h
  · exact absurd h (by simp)
  · rename_i hl0
    split at h
    · rename_i hat
      have hle : runL isLocalCh A ≤ A.length := runL_le_length isLocalCh A
      have hlt : runL isLocalCh A < A.length := by
        rcases Nat.lt_or_ge (runL isLocalCh A) A.length with h1 | h1
        · exact h1
        · exfalso
          have heq : runL isLocalCh A = A.length := Nat.le_antisymm hle h1
          rw [heq, List.getElem?_append_right le_rfl] at hat
          simp at hat
      have hatA : A[runL isLocalCh A]? = some '@' := by
        rw [List.getElem?_append_left hlt] at hat
        exact hat
      have hdropX : (A ++ '[' :: Z).drop (runL isLocalCh A + 1) =
          A.drop (runL isLocalCh A + 1) ++ '[' :: Z :=
        List.drop_append_of_le_length (by omega)
      rw [hdropX, takeWhile_append_stop isDomainCh _ Z '[' (by decide)] at h
      rcases hbd : bestDot ((A.drop (runL isLocalCh A + 1)).takeWhile isDomainCh)
        with _ | k
      · rw [hbd] at h
        simp at h
      · have hdot : dotOk ((A.drop (runL isLocalCh A + 1)).takeWhile isDomainCh) k = true :=
          List.find?_some hbd
        simp only [dotOk, Bool.and_eq_true, decide_eq_true_eq] at hdot
        obtain ⟨⟨hk1, hkd⟩, hka⟩ := hdot
        have hklt : k < ((A.drop (runL isLocalCh A + 1)).takeWhile isDomainCh).length := by
          by_contra hc
          rw [List.getElem?_eq_none (by omega)] at hkd
          exact absurd hkd (by simp)
        obtain ⟨W, hW⟩ :=
          takeWhile_prefix_append isDomainCh (A.drop (runL isLocalCh A + 1)) Q
        have hdotQ : dotOk ((A.drop (runL isLocalCh A + 1) ++ Q).takeWhile isDomainCh)
            k = true := by
          rw [← hW]
          simp only [dotOk, Bool.and_eq_true, decide_eq_true_eq]
          refine ⟨⟨hk1, ?_⟩, ?_⟩
          · rw [List.getElem?_append_left hklt]
            exact hkd
          · rw [List.drop_append_of_le_length (by omega)]
            have hmono := runL_prefix_le isAsciiAlpha
              (((A.drop (runL isLocalCh A + 1)).takeWhile isDomainCh).drop (k + 1)) W
            omega
        have hsome : (bestDot ((A.drop (runL isLocalCh A + 1) ++ Q).takeWhile
            isDomainCh)).isSome := by
          simp only [bestDot]
          rw [List.find?_isSome]
          refine ⟨k, ?_, hdotQ⟩
          simp only [List.mem_reverse, List.mem_range]
          calc k < ((A.drop (runL isLocalCh A + 1)).takeWhile isDomainCh).length := hklt
            _ ≤ _ := by rw [← hW]; simp
        obtain ⟨k2, hk2⟩ := Option.isSome_iff_exists.mp hsome
        have hatQ : (A ++ Q)[runL isLocalCh A]? = some '@' := by
          rw [List.getElem?_append_left hlt]
          exact hatA
        simp only [matchEmail]
        rw [runL_append_of_lt isLocalCh A Q hlt, if_neg hl0, if_pos hatQ,
          show (A ++ Q).drop (runL isLocalCh A + 1) =
              A.drop (runL isLocalCh A + 1) ++ Q from
            List.drop_append_of_le_length (by omega),
          hk2]
        exact ⟨_, rfl⟩
    · exact absurd h (by simp)

/-- The four-pass redaction is idempotent: each pass's replacement text is
inert for its own matcher and for every earlier matcher, and any match a
marker could seed transfers back to the text the marker replaced,
contradicting the first pass's exhaustiveness. -/
theorem redact_idem (u : List Char) : redactL (redactL u) = redactL u := by
  have hB1 : NoMatch matchBearer (MBearer.run u) :=
    noMatch_self MBearer matchBearer_suffix_markerBearer
      (fun A Z Q kq m2 hQ h => matchBearer_transfer_bearer A Z Q kq m2 hQ h) u
  have hB2 : NoMatch matchBearer (MHex.run (MBearer.run u)) :=
    noMatch_preserved matchBearer MHex rfl
      (matchBearer_suffix_of_key markerId (by decide))
      (fun A Z Q kq m2 _ h => matchBearer_transfer A _ Q m2 h)
      (MBearer.run u) hB1
  have hB3 : NoMatch matchBearer (MEmail.run (MHex.run (MBearer.run u))) :=
    noMatch_preserved matchBearer MEmail rfl
      (matchBearer_suffix_of_key markerEmail (by decide))
      (fun A Z Q kq m2 _ h => matchBearer_transfer A _ Q m2 h)
      _ hB2
  have hB4 : NoMatch matchBearer
      (scanIp false (MEmail.run (MHex.run (MBearer.run u)))) :=
    noMatch_preserved_ip matchBearer rfl
      (matchBearer_suffix_of_key markerIp (by decide))
      (fun A Z Q m2 h => matchBearer_transfer A _ Q m2 h)
      false _ hB3
  have hH2 : NoMatch matchHex (MHex.run (MBearer.run u)) :=
    noMatch_self MHex
      (matchHex_marker_suffix markerId (by decide) (by decide))
      (fun A Z Q kq m2 _ h => matchHex_transfer A _ Q m2 h) _
  have hH3 : NoMatch matchHex (MEmail.run (MHex.run (MBearer.run u))) :=
    noMatch_preserved matchHex MEmail rfl
      (matchHex_marker_suffix markerEmail (by decide) (by decide))
      (fun A Z Q kq m2 _ h => matchHex_transfer A _ Q m2 h)
      _ hH2
  have hH4 : NoMatch matchHex
      (scanIp false (MEmail.run (MHex.run (MBearer.run u)))) :=
    noMatch_preserved_ip matchHex rfl
      (matchHex_marker_suffix markerIp (by decide) (by decide))
      (fun A Z Q m2 h => matchHex_transfer A _ Q m2 h)
      false _ hH3
  have hE3 : NoMatch matchEmail (MEmail.run (MHex.run (MBearer.run u))) :=
    noMatch_self MEmail
      (matchEmail_marker_suffix markerEmail (by decide) (by decide))
      (fun A Z Q kq m2 _ h => matchEmail_transfer A _ Q m2 h) _
  have hE4 : NoMatch matchEmail
      (scanIp false (MEmail.run (MHex.run (MBearer.run u)))) :=
    noMatch_preserved_ip matchEmail rfl
      (matchEmail_marker_suffix markerIp (by decide) (by decide))
      (fun A Z Q m2 h => matchEmail_transfer A _ Q m2 h)
      false _ hE3
  have hIp : NoMatchIp false
      (scanIp false (MEmail.run (MHex.run (MBearer.run u)))) :=
    noMatchIp_self false _
  simp only [redactL]
  rw [matcherRun_id_of_noMatch MBearer _ hB4,
      matcherRun_id_of_noMatch MHex _ hH4,
      matcherRun_id_of_noMatch MEmail _ hE4,
      scanIp_id_of_noMatchIp false _ hIp]

/-- C7: `sanitizeErrorMessage` is idempotent on every input whose
post-redaction length is below 200 characters: the redaction markers
introduced by the first pass are not themselves altered by a second pass,
and no truncation occurs on either pass, so
`sanitize (sanitize x) = sanitize x`. -/
theorem c7_sanitize_idempotent (s : String)
    (h : (redactL s.data).length < 200) :
    sanitizeErrorMessage (sanitizeErrorMessage s) = sanitizeErrorMessage s := by
  have hfirst : sanitizeErrorMessage s = String.mk (redactL s.data) := by
    simp only [sanitizeErrorMessage]
    rw [if_neg (by omega)]
  rw [hfirst]
  simp only [sanitizeErrorMessage]
  rw [redact_idem]
  rw [if_neg (by omega)]

/-- C7 witness: a concrete message containing a Bearer token, an email
address and an IPv4 address redacts to under 200 characters and is a fixed
point of a second sanitization. -/
theorem c7_sanitize_idempotent_witness :
    (redactL ("Bearer abc a@b.co 1.2.3.4").data).length < 200 ∧
    sanitizeErrorMessage (sanitizeErrorMessage "Bearer abc a@b.co 1.2.3.4") =
      sanitizeErrorMessage "Bearer abc a@b.co 1.2.3.4" :=
  ⟨by decide, c7_sanitize_idempotent "Bearer abc a@b.co 1.2.3.4" (by decide)⟩
